import Mathlib

/-!
Shallow embedding of the radix-tree mutation engine of `js-search-rt`
(`src/trunk/js-search-rt/RadixTree.js`), together with proofs about its
claims.

Modelling conventions:
* JS strings are modelled as `List Char` (`Key`); `substr`, `charAt` and the
  character-comparison loops become `List.drop`/`List.take` and a recursively
  computed common-prefix length.
* A tree node is a JS object mapping edge labels to child objects, with the
  reserved key `$` holding the data array.  We model it as `Node α`: an
  ordered association list of children (JS objects preserve insertion order
  for the string keys used here, and `$` never collides with a normalized
  label) plus an optional data list.  Property assignment on a fresh key
  appends; assignment on an existing key replaces in place; `delete` removes.
* Data values are opaque; `JSON.stringify` comparison of opaque values is
  modelled as decidable (structural) equality on `α`.
* The mutable `index` record threaded through `_traverse` is the `Idx`
  structure; the `parents` array of node references is represented by the
  `path` of edge labels from the root (the parents are exactly the nodes at
  the proper prefixes of `path`).
* In-place mutation through node references becomes functional update at the
  recorded path (`updateAt`).
* The recursive `_traverse` is given explicit fuel so that every definition
  computes by kernel reduction; `traverseGo_isSome_of_fuel` shows the fuel
  used by `insert`/`remove` (`key.length + 1`) always suffices, so the
  fallback branches for exhausted fuel are unreachable.
* A thrown JS `TypeError` (reading `.length` of an absent `$`) is modelled as
  `Except.error ()`; in the source the throw happens before any mutation, and
  the model mirrors that by building no new state in those branches.
-/

namespace JsSearchRt

/-- A JS string: a finite sequence of characters. -/
abbrev Key := List Char

/-- The character-comparison loop of `_traverse`: the number of leading
positions at which the two strings agree (`charAt` mismatch, including
running off the end of either string, stops the loop). -/
def commonPrefixLen : Key → Key → Nat
  | a :: as, b :: bs => if a = b then commonPrefixLen as bs + 1 else 0
  | _, _ => 0

variable {α : Type}

/-- A tree node: the JS object with its edge-label children (in insertion
order) and the optional `$` data array. -/
inductive Node (α : Type) where
  | mk : List (Key × Node α) → Option (List α) → Node α

/-- The children of a node (all keys other than `$`). -/
def Node.children : Node α → List (Key × Node α)
  | .mk cs _ => cs

/-- The `$` data array of a node, when present. -/
def Node.data : Node α → Option (List α)
  | .mk _ d => d

theorem Node.eta (n : Node α) : Node.mk n.children n.data = n := by
  cases n
  rfl

/-- Property read `node[k]` restricted to children: the first (unique in a
JS object) entry with the given key. -/
def lookupC : List (Key × Node α) → Key → Option (Node α)
  | [], _ => none
  | (k', c) :: rest, k => if k' = k then some c else lookupC rest k

/-- Property write `node[k] = c`: replace in place if the key exists,
otherwise append (JS insertion order). -/
def setC : List (Key × Node α) → Key → Node α → List (Key × Node α)
  | [], k, c => [(k, c)]
  | (k', c') :: rest, k, c =>
      if k' = k then (k, c) :: rest else (k', c') :: setC rest k c

/-- `delete node[k]`. -/
def delC (cs : List (Key × Node α)) (k : Key) : List (Key × Node α) :=
  cs.filter (fun p => decide (p.1 ≠ k))

/-- `node[k]` as child lookup. -/
def getChild (n : Node α) (k : Key) : Option (Node α) :=
  lookupC n.children k

/-- `node[k] = c` on a node. -/
def setChild (n : Node α) (k : Key) (c : Node α) : Node α :=
  .mk (setC n.children k c) n.data

/-- The node reached from `n` by following the given sequence of edge
labels. -/
def getNode (n : Node α) : List Key → Option (Node α)
  | [] => some n
  | l :: rest =>
      match getChild n l with
      | none => none
      | some c => getNode c rest

/-- Apply `f` to the node at the given path (in-place mutation through a
retained reference, expressed functionally).  A broken path leaves the tree
unchanged; real calls only use paths recorded during traversal. -/
def updateAt (n : Node α) (p : List Key) (f : Node α → Node α) : Node α :=
  match p with
  | [] => f n
  | l :: rest =>
      match getChild n l with
      | none => n
      | some c => setChild n l (updateAt c rest f)

/-- The data list attached at the end of a path, if the path exists and the
node has one. -/
def dataAt (n : Node α) (p : List Key) : Option (List α) :=
  (getNode n p).bind Node.data

/-- `_isEmpty`: `Object.keys(node).length === 0` (the `$` key counts). -/
def isEmptyN (n : Node α) : Bool :=
  n.children.isEmpty && n.data.isNone

/-- One pass of `_removeEmptyParents` over a single parent: delete every
property whose value is an empty object.  An own `$` key holding an empty
array would also be deleted (`Object.keys([]).length === 0`), which the
mutation paths never produce. -/
def cleanNode (n : Node α) : Node α :=
  .mk (n.children.filter (fun p => !(isEmptyN p.2)))
    (match n.data with
     | some [] => none
     | d => d)

/-- `_removeEmptyParents` over the parents at the prefixes of the argument
path, processed deepest-first (the source reverses the parents array):
descend first, then clean the current level, so each level sees the effect
of the deeper clean-ups. -/
def prunePath (n : Node α) : List Key → Node α
  | [] => cleanNode n
  | l :: rest =>
      match getChild n l with
      | none => cleanNode n
      | some c => cleanNode (setChild n l (prunePath c rest))

/-- `_removeEmptyParents(index.parents)`: the parents are the nodes at the
proper prefixes of the path to `index.node`; an empty parents array is a
no-op loop. -/
def pruneParents (n : Node α) (path : List Key) : Node α :=
  match path with
  | [] => n
  | _ :: _ => prunePath n path.dropLast

/-- The mutable `index` record of `_traverse`: current node, last examined
edge label (`nodeKey`), characters of that label matched (`charsMatch`),
total key characters matched (`ttlCharsMatch`), and the label path from the
root to the current node (standing for the `parents` reference array). -/
structure Idx (α : Type) where
  node : Node α
  nodeKey : Key
  charsMatch : Nat
  ttlCharsMatch : Nat
  path : List Key

/-- The initial index for a call of `insert`/`remove`. -/
def initIdx (root : Node α) : Idx α :=
  ⟨root, [], 0, 0, []⟩

/-- The `for (var str in index.node)` loop of `_traverse`: the first child
whose label shares a non-empty prefix with the key remainder, together with
the match length. -/
def findMatch (tempKey : Key) : List (Key × Node α) → Option (Key × Node α × Nat)
  | [] => none
  | (l, c) :: rest =>
      let i := commonPrefixLen tempKey l
      if 0 < i then some (l, c, i) else findMatch tempKey rest

/-- One round of the `_traverse` body before the recursion guard: scan the
children, and on a match update the counters, descending (and pushing the
current node onto the parents) exactly when the whole label matched. -/
def stepIdx (key : Key) (idx : Idx α) : Idx α :=
  match findMatch (key.drop idx.ttlCharsMatch) idx.node.children with
  | none => idx
  | some (l, c, i) =>
      if i = l.length then
        ⟨c, l, i, idx.ttlCharsMatch + i, idx.path ++ [l]⟩
      else
        ⟨idx.node, l, i, idx.ttlCharsMatch + i, idx.path⟩

/-- The recursion guard of `_traverse`: entire key not yet checked, the
current node has children (`_leafCount`), the last label matched fully, and
total matched characters increased this round. -/
def goOn (key : Key) (tempMatch : Nat) (idx : Idx α) : Prop :=
  idx.ttlCharsMatch < key.length ∧ 0 < idx.node.children.length ∧
    idx.charsMatch = idx.nodeKey.length ∧ tempMatch ≠ idx.ttlCharsMatch

instance (key : Key) (tempMatch : Nat) (idx : Idx α) :
    Decidable (goOn key tempMatch idx) := by
  unfold goOn; infer_instance

/-- `_traverse`, with explicit fuel standing for the recursion depth.
`traverseGo_isSome_of_fuel` shows fuel `key.length + 1` always suffices. -/
def traverseGo : Nat → Key → Idx α → Option (Idx α)
  | 0, _, _ => none
  | fuel + 1, key, idx =>
      let tempMatch := idx.ttlCharsMatch
      let idx' := stepIdx key idx
      if goOn key tempMatch idx' then traverseGo fuel key idx'
      else some idx'

/-- The traversal outcome classified by `_processResults` (`switch(true)`,
first matching case wins). -/
inductive TClass where
  | nonExists
  | suffix
  | exact
  | existsCase
  | classFailure
  deriving DecidableEq

/-- The classification switch of `_processResults`, in source order. -/
def classify (keyLen : Nat) (idx : Idx α) : TClass :=
  if idx.ttlCharsMatch = 0 then .nonExists
  else if idx.ttlCharsMatch < keyLen ∧ idx.charsMatch = idx.nodeKey.length then .suffix
  else if idx.ttlCharsMatch = keyLen ∧ idx.charsMatch = idx.nodeKey.length then .exact
  else if 0 < idx.ttlCharsMatch then .existsCase
  else .classFailure

/-- The whole traversal of one public call: run `_traverse` from the root
with the fuel `insert`/`remove` use.  The default is never taken
(`traverseFull_eq`). -/
def traverseFull (root : Node α) (key : Key) : Idx α :=
  (traverseGo (key.length + 1) key (initIdx root)).getD (initIdx root)

/-- The tree aggregate: the two running counters (JS numbers, modelled as
integers), the root node, and the optional construction-time `keySwap`
table. -/
structure RadixTree (α : Type) where
  keywordCount : Int
  dataCount : Int
  tree : Node α
  keySwap : List (Key × Key)

/-- A freshly constructed tree: zero counters, empty root object. -/
def RadixTree.empty (ks : List (Key × Key)) : RadixTree α :=
  ⟨0, 0, .mk [] none, ks⟩

/-- `keySwap` lookup (a JS property read on the optional table). -/
def swapLookup : List (Key × Key) → Key → Option Key
  | [], _ => none
  | (k', v) :: rest, k => if k' = k then some v else swapLookup rest k

/-- A single character of `key.toLowerCase().replace(/ /g, "_")`:
lower-casing never produces a space, so the replacement after lower-casing
acts on the original spaces. -/
def normChar (c : Char) : Char :=
  let c := c.toLower
  if c = ' ' then '_' else c

/-- `_processKey`: optional `keySwap` substitution (skipped when the table
maps to a falsy value, i.e. the empty string), then lower-case and replace
spaces by underscores. -/
def processKey (t : RadixTree α) (key : Key) : Key :=
  let key :=
    match swapLookup t.keySwap key with
    | some k => if k = [] then key else k
    | none => key
  key.map normChar

/-- `_insertData`: push onto a non-empty existing `$`, otherwise create a
fresh singleton `$`.  Only `dataCount` is incremented. -/
def insertData (t : RadixTree α) (d : α) (idx : Idx α) : RadixTree α :=
  { t with
    tree := updateAt t.tree idx.path (fun n =>
      match n.data with
      | some l => if l.length ≠ 0 then .mk n.children (some (l ++ [d])) else .mk n.children (some [d])
      | none => .mk n.children (some [d])),
    dataCount := t.dataCount + 1 }

/-- `_createNode`: strip the matched key portion and add a fresh child with
a singleton data list; both counters are incremented. -/
def createNode (t : RadixTree α) (key : Key) (d : α) (idx : Idx α) : RadixTree α :=
  let k := if idx.ttlCharsMatch ≠ 0 then key.drop idx.ttlCharsMatch else key
  { t with
    tree := updateAt t.tree idx.path (fun n => setChild n k (.mk [] (some [d]))),
    keywordCount := t.keywordCount + 1,
    dataCount := t.dataCount + 1 }

/-- `tempKey` of `_splitNode`: `key.substr(i, charsMatch)` with
`i = ttlCharsMatch - charsMatch` — the first `charsMatch` characters of the
key past the already-consumed portion, the label of the new intermediate
node. -/
def tempKeyOf (key : Key) (idx : Idx α) : Key :=
  (key.drop (idx.ttlCharsMatch - idx.charsMatch)).take idx.charsMatch

/-- `tempIndexKey` of `_splitNode`: `nodeKey.substr(charsMatch)` — the new
edge label under which the old child is re-parented. -/
def tempIndexKeyOf (idx : Idx α) : Key :=
  idx.nodeKey.drop idx.charsMatch

/-- The node rebuild of `_splitNode` at `index.node`, assignments in source
order: create the intermediate node (with the new value as its data when the
key is fully consumed, otherwise in a new child for the key's remaining
suffix), re-parent the old child under it with the label remainder (reading
`index.node[index.nodeKey]` after the first assignment, as the source does),
then delete the old edge. -/
def splitApply (key : Key) (d : α) (idx : Idx α) (n : Node α) : Node α :=
  let mid : Node α :=
    if idx.ttlCharsMatch = key.length then .mk [] (some [d])
    else .mk [(key.drop idx.ttlCharsMatch, .mk [] (some [d]))] none
  let n1 := setChild n (tempKeyOf key idx) mid
  let n2 :=
    match getChild n1 idx.nodeKey with
    | some old => setChild n1 (tempKeyOf key idx) (setChild mid (tempIndexKeyOf idx) old)
    | none => n1
  .mk (delC n2.children idx.nodeKey) n2.data

/-- `_splitNode`: fork the edge `nodeKey` at offset `charsMatch`; both
counters are incremented. -/
def splitNode (t : RadixTree α) (key : Key) (d : α) (idx : Idx α) : RadixTree α :=
  { t with
    tree := updateAt t.tree idx.path (splitApply key d idx),
    keywordCount := t.keywordCount + 1,
    dataCount := t.dataCount + 1 }

/-- The split result as the specification describes it (the spec-side
counterpart, to be compared with the source's `splitApply`): the old direct
edge is removed, a new intermediate node sits under `tempKey` holding the
re-parented old child under `tempIndexKey`, and the new value is attached
either as the intermediate node's own data (when the whole key is consumed
by the common prefix) or in a second child labeled with the key's remaining
suffix. -/
def specSplitNode (key : Key) (d : α) (idx : Idx α) (cOld : Node α) : Node α :=
  Node.mk
    (delC idx.node.children idx.nodeKey ++
      [(tempKeyOf key idx,
        Node.mk
          ((if idx.ttlCharsMatch = key.length then []
            else [(key.drop idx.ttlCharsMatch, Node.mk [] (some [d]))]) ++
            [(tempIndexKeyOf idx, cOld)])
          (if idx.ttlCharsMatch = key.length then some [d] else none))])
    idx.node.data

/-- `insert`: process the key, traverse, and dispatch on the classification
with the insertion callback bundle.  The failure branch only logs. -/
def RadixTree.insert (t : RadixTree α) (rawKey : Key) (d : α) : RadixTree α :=
  let key := processKey t rawKey
  let idx := traverseFull t.tree key
  match classify key.length idx with
  | .nonExists => createNode t key d idx
  | .suffix => createNode t key d idx
  | .exact => insertData t d idx
  | .existsCase => splitNode t key d idx
  | .classFailure => t

/-- The removal failure reports written to the diagnostics sink
(`console.log`). -/
inductive RemoveReport where
  | keyNotFound
  | keyIsPrefixOnly
  | keyPartialMatch
  | valueNotFound
  | classificationFailure
  deriving DecidableEq

/-- `_removeError`: its own `switch(true)` over the traversal counters,
selecting the logged message; no mutation. -/
def removeErrorReport (keyLen : Nat) (idx : Idx α) : RemoveReport :=
  if idx.ttlCharsMatch = 0 then .keyNotFound
  else if idx.ttlCharsMatch < keyLen then .keyIsPrefixOnly
  else if 0 < idx.ttlCharsMatch then .keyPartialMatch
  else .classificationFailure

/-- `_removeData`.  `Except.error ()` models the JS `TypeError` thrown by
reading `.length` of an absent `$`; the source throws before any mutation
and the model builds no state in those branches.  The successful paths
return the new tree and `none`; the value-not-found path returns the old
tree and its report. -/
def removeData [DecidableEq α] (t : RadixTree α) (d : Option α) (idx : Idx α) :
    Except Unit (RadixTree α × Option RemoveReport) :=
  match d with
  | none =>
      match idx.node.data with
      | none => .error ()
      | some l =>
          let t1 : RadixTree α :=
            { t with
              dataCount := t.dataCount - l.length,
              keywordCount := t.keywordCount - 1,
              tree := updateAt t.tree idx.path (fun n => .mk n.children none) }
          if idx.node.children.isEmpty then
            .ok ({ t1 with tree := pruneParents t1.tree idx.path }, none)
          else
            .ok (t1, none)
  | some v =>
      match idx.node.data with
      | none => .error ()
      | some l =>
          let i := l.findIdx (fun x => x = v)
          if i < l.length then
            let l' := l.eraseIdx i
            if l'.length = 0 then
              let t1 : RadixTree α :=
                { t with
                  dataCount := t.dataCount - 1,
                  keywordCount := t.keywordCount - 1,
                  tree := updateAt t.tree idx.path (fun n => .mk n.children none) }
              if idx.node.children.isEmpty then
                .ok ({ t1 with tree := pruneParents t1.tree idx.path }, none)
              else
                .ok (t1, none)
            else
              .ok ({ t with
                  dataCount := t.dataCount - 1,
                  tree := updateAt t.tree idx.path (fun n => .mk n.children (some l')) }, none)
          else
            .ok (t, some .valueNotFound)

/-- `remove`: process the key, traverse, and dispatch on the classification
with the removal callback bundle (`_removeError` on the three mismatch
outcomes, `_removeData` on `exact`). -/
def RadixTree.remove [DecidableEq α] (t : RadixTree α) (rawKey : Key) (d : Option α) :
    Except Unit (RadixTree α × Option RemoveReport) :=
  let key := processKey t rawKey
  let idx := traverseFull t.tree key
  match classify key.length idx with
  | .nonExists => .ok (t, some (removeErrorReport key.length idx))
  | .suffix => .ok (t, some (removeErrorReport key.length idx))
  | .exact => removeData t d idx
  | .existsCase => .ok (t, some (removeErrorReport key.length idx))
  | .classFailure => .ok (t, some .classificationFailure)

/-- The tree after a `remove` call, when it returns normally; a call that
throws leaves the tree as it was (the throw precedes every mutation). -/
def removeT [DecidableEq α] (t : RadixTree α) (rawKey : Key) (d : Option α) : RadixTree α :=
  match t.remove rawKey d with
  | .ok (t', _) => t'
  | .error _ => t

/-- Whether a `remove` call throws a JS `TypeError`. -/
def removeCrashes [DecidableEq α] (t : RadixTree α) (rawKey : Key) (d : Option α) : Bool :=
  match t.remove rawKey d with
  | .ok _ => false
  | .error _ => true

/-- Full-scan keyword count (number of nodes with a present, non-empty data
list), with a depth bound so the scan computes by kernel reduction. -/
def scanKeywordCount : Nat → Node α → Nat
  | 0, _ => 0
  | fuel + 1, n =>
      (match n.data with
       | some (_ :: _) => 1
       | _ => 0) +
        (n.children.map (fun p => scanKeywordCount fuel p.2)).sum

/-- Full-scan data count (sum of all data-list lengths), with a depth
bound. -/
def scanDataCount : Nat → Node α → Nat
  | 0, _ => 0
  | fuel + 1, n =>
      (match n.data with
       | some l => l.length
       | none => 0) +
        (n.children.map (fun p => scanDataCount fuel p.2)).sum

/-- The states reachable from a freshly constructed tree by the public
operations.  A `remove` that throws leaves the state unchanged (the throw
precedes every mutation), so such calls do not generate new states. -/
inductive Reachable [DecidableEq α] : RadixTree α → Prop where
  | empty (ks : List (Key × Key)) : Reachable (RadixTree.empty ks)
  | insert {t : RadixTree α} (k : Key) (d : α) :
      Reachable t → Reachable (t.insert k d)
  | remove {t t' : RadixTree α} (k : Key) (d : Option α) (r : Option RemoveReport) :
      Reachable t → t.remove k d = .ok (t', r) → Reachable t'

/-- Reachability through calls whose normalized keys avoid the reserved `$`
character.  The JS object stores the data list under the own property `$`,
and the source's `for (var str in index.node)` scan iterates that property
together with the edge labels; a key remainder can only ever match it when
it starts with `$`.  Under a `$`-free history and `$`-free keys the scan can
never select the data slot (its one-character label `$` shares no first
character with any remainder), so the children-only model coincides with the
source's behavior on these states. -/
inductive ReachableND [DecidableEq α] : RadixTree α → Prop where
  | empty (ks : List (Key × Key)) : ReachableND (RadixTree.empty ks)
  | insert {t : RadixTree α} (k : Key) (d : α) :
      '$' ∉ processKey t k → ReachableND t → ReachableND (t.insert k d)
  | remove {t t' : RadixTree α} (k : Key) (d : Option α) (r : Option RemoveReport) :
      '$' ∉ processKey t k → ReachableND t → t.remove k d = .ok (t', r) →
      ReachableND t'

/-! ### Basic facts about the traversal -/

theorem stepIdx_ttl_le (key : Key) (idx : Idx α) :
    idx.ttlCharsMatch ≤ (stepIdx key idx).ttlCharsMatch := by
  unfold stepIdx
  cases h : findMatch (key.drop idx.ttlCharsMatch) idx.node.children with
  | none => exact Nat.le_refl _
  | some x =>
      obtain ⟨l, c, i⟩ := x
      by_cases hi : i = l.length <;> simp [hi]

/-- Fuel sufficiency for `_traverse`: the recursion strictly increases
`ttlCharsMatch` (guarded) and only recurses while it is below the key
length, so any fuel exceeding the unmatched key length suffices.  This is
the termination bound of the source's progress guard. -/
theorem traverseGo_isSome_of_fuel :
    ∀ (fuel : Nat) (key : Key) (idx : Idx α),
      key.length - idx.ttlCharsMatch < fuel →
      (traverseGo fuel key idx).isSome = true := by
  intro fuel
  induction fuel with
  | zero => intro key idx h; omega
  | succ fuel ih =>
      intro key idx h
      rw [traverseGo]
      by_cases hg : goOn key idx.ttlCharsMatch (stepIdx key idx)
      · simp only [hg, if_pos]
        apply ih
        have h1 := stepIdx_ttl_le key idx
        obtain ⟨hlt, -, -, hne⟩ := hg
        omega
      · simp [hg]

theorem traverseGo_mono :
    ∀ (f g : Nat) (key : Key) (idx r : Idx α), f ≤ g →
      traverseGo f key idx = some r → traverseGo g key idx = some r := by
  intro f
  induction f with
  | zero => intro g key idx r _ h; simp [traverseGo] at h
  | succ f ih =>
      intro g key idx r hle h
      obtain ⟨g, rfl⟩ : ∃ g', g = g' + 1 := ⟨g - 1, by omega⟩
      rw [traverseGo] at h ⊢
      by_cases hg : goOn key idx.ttlCharsMatch (stepIdx key idx)
      · simp only [hg, if_pos] at h ⊢
        exact ih g key _ r (by omega) h
      · simpa [hg] using h

theorem traverseFull_eq (root : Node α) (key : Key) :
    traverseGo (key.length + 1) key (initIdx root) = some (traverseFull root key) := by
  have h := traverseGo_isSome_of_fuel (key.length + 1) key (initIdx root) (by simp [initIdx])
  obtain ⟨r, hr⟩ := Option.isSome_iff_exists.mp h
  simp [traverseFull, hr]

/-! ### Common-prefix facts -/

theorem commonPrefixLen_le_left : ∀ a b : Key, commonPrefixLen a b ≤ a.length
  | [], _ => by simp [commonPrefixLen]
  | _ :: _, [] => by simp [commonPrefixLen]
  | a :: as, b :: bs => by
      rw [commonPrefixLen]
      split_ifs
      · have := commonPrefixLen_le_left as bs
        simpa using this
      · simp

theorem commonPrefixLen_le_right : ∀ a b : Key, commonPrefixLen a b ≤ b.length
  | [], _ => by simp [commonPrefixLen]
  | _ :: _, [] => by simp [commonPrefixLen]
  | a :: as, b :: bs => by
      rw [commonPrefixLen]
      split_ifs
      · have := commonPrefixLen_le_right as bs
        simpa using this
      · simp

theorem commonPrefixLen_self : ∀ a : Key, commonPrefixLen a a = a.length
  | [] => rfl
  | a :: as => by simp [commonPrefixLen, commonPrefixLen_self as]

theorem commonPrefixLen_take :
    ∀ a b : Key, a.take (commonPrefixLen a b) = b.take (commonPrefixLen a b)
  | [], b => by simp [commonPrefixLen]
  | _ :: _, [] => by simp [commonPrefixLen]
  | a :: as, b :: bs => by
      rw [commonPrefixLen]
      split_ifs with h
      · subst h
        simpa using commonPrefixLen_take as bs
      · simp

theorem commonPrefixLen_getElem_ne :
    ∀ (a b : Key), commonPrefixLen a b < a.length → commonPrefixLen a b < b.length →
      a[commonPrefixLen a b]? ≠ b[commonPrefixLen a b]?
  | [], _ => by simp [commonPrefixLen]
  | _ :: _, [] => by simp [commonPrefixLen]
  | a :: as, b :: bs => by
      intro h1 h2
      by_cases h : a = b
      · subst h
        have hc : commonPrefixLen (a :: as) (a :: bs) = commonPrefixLen as bs + 1 := by
          simp [commonPrefixLen]
        rw [hc] at h1 h2 ⊢
        simp only [List.getElem?_cons_succ]
        exact commonPrefixLen_getElem_ne as bs (by simpa using h1) (by simpa using h2)
      · have hc : commonPrefixLen (a :: as) (b :: bs) = 0 := by simp [commonPrefixLen, h]
        rw [hc]
        simpa using h

theorem head?_eq_of_commonPrefixLen_pos {a b : Key}
    (h : 0 < commonPrefixLen a b) : a.head? = b.head? := by
  match a, b with
  | [], _ => simp [commonPrefixLen] at h
  | _ :: _, [] => simp [commonPrefixLen] at h
  | a :: as, b :: bs =>
      by_cases hab : a = b
      · simp [hab]
      · simp [commonPrefixLen, hab] at h

theorem head?_ne_of_commonPrefixLen_zero {a b : Key} (ha : a ≠ [])
    (h : commonPrefixLen a b = 0) : a.head? ≠ b.head? := by
  match a, b with
  | [], _ => exact absurd rfl ha
  | a :: as, [] => simp
  | a :: as, b :: bs =>
      by_cases hab : a = b
      · simp [commonPrefixLen, hab] at h
      · simpa using hab

theorem take_head? {a : Key} {m : Nat} (h : 0 < m) : (a.take m).head? = a.head? := by
  cases a with
  | nil => simp
  | cons x xs =>
      cases m with
      | zero => omega
      | succ m => simp

theorem drop_head? (a : Key) (n : Nat) : (a.drop n).head? = a[n]? :=
  List.head?_drop a n

/-! ### Facts about the child scan -/

theorem findMatch_eq_none_iff (tk : Key) :
    ∀ cs : List (Key × Node α),
      findMatch tk cs = none ↔ ∀ p ∈ cs, commonPrefixLen tk p.1 = 0
  | [] => by simp [findMatch]
  | (l, c) :: rest => by
      rw [findMatch]
      split_ifs with h
      · simp only [reduceCtorEq, false_iff]
        intro hall
        have := hall (l, c) (List.mem_cons_self _ _)
        simp at this
        omega
      · rw [findMatch_eq_none_iff tk rest]
        constructor
        · intro hall p hp
          rcases List.mem_cons.mp hp with h1 | h1
          · subst h1
            simpa using by omega
          · exact hall p h1
        · intro hall p hp
          exact hall p (List.mem_cons_of_mem _ hp)

theorem findMatch_eq_some {tk : Key} {l : Key} {c : Node α} {i : Nat} :
    ∀ {cs : List (Key × Node α)}, findMatch tk cs = some (l, c, i) →
      (l, c) ∈ cs ∧ i = commonPrefixLen tk l ∧ 0 < i
  | [], h => by simp [findMatch] at h
  | (l2, c2) :: rest, h => by
      rw [findMatch] at h
      split_ifs at h with h2
      · obtain ⟨rfl, rfl, rfl⟩ := by simpa using h
        exact ⟨List.mem_cons_self _ _, rfl, h2⟩
      · obtain ⟨hm, hi, hpos⟩ := findMatch_eq_some h
        exact ⟨List.mem_cons_of_mem _ hm, hi, hpos⟩

/-! ### Facts about the children association list -/

theorem lookupC_eq_some_mem :
    ∀ {cs : List (Key × Node α)} {k : Key} {c : Node α},
      lookupC cs k = some c → (k, c) ∈ cs
  | [], _, _, h => by simp [lookupC] at h
  | (k2, c2) :: rest, k, c, h => by
      rw [lookupC] at h
      split_ifs at h with he
      · subst he
        obtain rfl := by simpa using h
        exact List.mem_cons_self _ _
      · exact List.mem_cons_of_mem _ (lookupC_eq_some_mem h)

theorem lookupC_eq_none_iff :
    ∀ {cs : List (Key × Node α)} {k : Key},
      lookupC cs k = none ↔ ∀ p ∈ cs, p.1 ≠ k
  | [], _ => by simp [lookupC]
  | (k2, c2) :: rest, k => by
      rw [lookupC]
      split_ifs with he
      · subst he
        constructor
        · intro h2
          exact absurd h2 (by simp)
        · intro hall
          exact absurd rfl (hall (k2, c2) (List.mem_cons_self _ _))
      · rw [lookupC_eq_none_iff]
        constructor
        · intro hall p hp
          rcases List.mem_cons.mp hp with h1 | h1
          · subst h1
            exact he
          · exact hall p h1
        · intro hall p hp
          exact hall p (List.mem_cons_of_mem _ hp)

theorem lookupC_eq_of_mem_nodup :
    ∀ {cs : List (Key × Node α)} {k : Key} {c : Node α},
      cs.Pairwise (fun p q => p.1 ≠ q.1) → (k, c) ∈ cs → lookupC cs k = some c
  | [], _, _, _, hm => by simp at hm
  | (k2, c2) :: rest, k, c, hnd, hm => by
      rw [lookupC]
      rcases List.mem_cons.mp hm with h1 | h1
      · injection h1 with hk hc
        subst hk
        subst hc
        simp
      · have hk : k2 ≠ k := by
          intro he
          subst he
          exact (List.pairwise_cons.mp hnd).1 (k2, c) h1 rfl
        rw [if_neg hk]
        exact lookupC_eq_of_mem_nodup (List.pairwise_cons.mp hnd).2 h1

theorem lookupC_setC_self :
    ∀ (cs : List (Key × Node α)) (k : Key) (c : Node α),
      lookupC (setC cs k c) k = some c
  | [], k, c => by simp [setC, lookupC]
  | (k2, c2) :: rest, k, c => by
      rw [setC]
      split_ifs with he
      · simp [lookupC]
      · rw [lookupC, if_neg he]
        exact lookupC_setC_self rest k c

theorem lookupC_setC_ne {k k2 : Key} (hne : k2 ≠ k) :
    ∀ (cs : List (Key × Node α)) (c : Node α),
      lookupC (setC cs k c) k2 = lookupC cs k2
  | [], c => by
      simp only [setC, lookupC, if_neg (Ne.symm hne)]
  | (k3, c3) :: rest, c => by
      rw [setC]
      split_ifs with he
      · subst he
        rw [lookupC, lookupC, if_neg (Ne.symm hne), if_neg (Ne.symm hne)]
      · rw [lookupC, lookupC]
        split_ifs with h2
        · rfl
        · exact lookupC_setC_ne hne rest c

theorem setC_setC :
    ∀ (cs : List (Key × Node α)) (k : Key) (c c2 : Node α),
      setC (setC cs k c) k c2 = setC cs k c2
  | [], k, c, c2 => by simp [setC]
  | (k3, c3) :: rest, k, c, c2 => by
      by_cases he : k3 = k
      · subst he
        simp [setC]
      · simp only [setC, if_neg he]
        rw [setC_setC]

theorem setC_eq_append :
    ∀ {cs : List (Key × Node α)} {k : Key}, lookupC cs k = none →
      ∀ c : Node α, setC cs k c = cs ++ [(k, c)]
  | [], k, _, c => by simp [setC]
  | (k2, c2) :: rest, k, h, c => by
      rw [lookupC] at h
      split_ifs at h with he
      rw [setC, if_neg he, setC_eq_append h c]
      simp

theorem setC_self :
    ∀ {cs : List (Key × Node α)} {k : Key} {c : Node α},
      lookupC cs k = some c → setC cs k c = cs
  | [], _, _, h => by simp [lookupC] at h
  | (k2, c2) :: rest, k, c, h => by
      rw [lookupC] at h
      rw [setC]
      split_ifs with he
      · subst he
        obtain rfl := by simpa using h
        rfl
      · rw [if_neg he] at h
        rw [setC_self h]

theorem mem_setC :
    ∀ {cs : List (Key × Node α)} {k : Key} {c : Node α} {p : Key × Node α},
      p ∈ setC cs k c → p ∈ cs ∨ p = (k, c)
  | [], k, c, p, h => by
      rw [setC] at h
      exact Or.inr (by simpa using h)
  | (k2, c2) :: rest, k, c, p, h => by
      rw [setC] at h
      split_ifs at h with he
      · rcases List.mem_cons.mp h with h1 | h1
        · exact Or.inr h1
        · exact Or.inl (List.mem_cons_of_mem _ h1)
      · rcases List.mem_cons.mp h with h1 | h1
        · exact Or.inl (h1 ▸ List.mem_cons_self _ _)
        · rcases mem_setC h1 with h2 | h2
          · exact Or.inl (List.mem_cons_of_mem _ h2)
          · exact Or.inr h2

theorem setC_ne_nil :
    ∀ (cs : List (Key × Node α)) (k : Key) (c : Node α), setC cs k c ≠ []
  | [], k, c => by simp [setC]
  | (k2, c2) :: rest, k, c => by
      rw [setC]
      split_ifs <;> simp

theorem radix_setC
    {cs : List (Key × Node α)} {k : Key} {c0 : Node α}
    (hp : cs.Pairwise (fun p q : Key × Node α => p.1.head? ≠ q.1.head?))
    (hm : lookupC cs k = some c0) (c : Node α) :
    (setC cs k c).Pairwise (fun p q : Key × Node α => p.1.head? ≠ q.1.head?) := by
  induction cs with
  | nil => simp [lookupC] at hm
  | cons p2 rest ih =>
      obtain ⟨k2, c2⟩ := p2
      rw [lookupC] at hm
      rw [setC]
      obtain ⟨h1, h2⟩ := List.pairwise_cons.mp hp
      split_ifs at hm ⊢ with he
      · subst he
        refine List.pairwise_cons.mpr ⟨fun q hq => h1 q hq, h2⟩
      · refine List.pairwise_cons.mpr ⟨fun q hq => ?_, ih h2 hm⟩
        rcases mem_setC hq with h3 | h3
        · exact h1 q h3
        · subst h3
          exact h1 (k, c0) (lookupC_eq_some_mem hm)

/-! ### Facts about paths and path updates -/

theorem commonPrefixLen_nil_left (b : Key) : commonPrefixLen [] b = 0 := by
  cases b <;> rfl

theorem getChild_setChild_self (n : Node α) (k : Key) (c : Node α) :
    getChild (setChild n k c) k = some c :=
  lookupC_setC_self _ _ _

theorem getChild_setChild_ne (n : Node α) {k k2 : Key} (h : k2 ≠ k) (c : Node α) :
    getChild (setChild n k c) k2 = getChild n k2 :=
  lookupC_setC_ne h _ _

theorem getNode_append (n : Node α) :
    ∀ (p : List Key) (l : Key),
      getNode n (p ++ [l]) = (getNode n p).bind (fun m => getChild m l)
  | [], l => by
      cases h : getChild n l <;> simp [getNode, h]
  | l2 :: rest, l => by
      rw [List.cons_append, getNode, getNode]
      cases h : getChild n l2 with
      | none => simp
      | some c => exact getNode_append c rest l

theorem getNode_updateAt (f : Node α → Node α) :
    ∀ (p : List Key) (n : Node α),
      getNode (updateAt n p f) p = (getNode n p).map f
  | [], n => by simp [getNode, updateAt]
  | l :: rest, n => by
      rw [updateAt]
      cases h : getChild n l with
      | none => simp [getNode, h]
      | some c =>
          have h2 : getChild (setChild n l (updateAt c rest f)) l =
              some (updateAt c rest f) :=
            getChild_setChild_self n l _
          rw [getNode, getNode, h, h2]
          exact getNode_updateAt f rest c

theorem updateAt_append (f : Node α → Node α) :
    ∀ (p : List Key) (l : Key) (n : Node α),
      updateAt n (p ++ [l]) f =
        updateAt n p (fun m =>
          match getChild m l with
          | none => m
          | some c => setChild m l (f c))
  | [], l, n => by simp [updateAt]
  | l2 :: rest, l, n => by
      rw [List.cons_append, updateAt, updateAt]
      cases h : getChild n l2 with
      | none => rfl
      | some c =>
          dsimp only
          rw [updateAt_append f rest l c]

/-! ### The structural invariant of reachable trees -/

/-- Well-formedness of a subtree: the radix property (pairwise distinct
first characters among sibling edge labels), no empty child objects (a
child with no children carries data), no empty data arrays, recursively. -/
inductive WF : Node α → Prop where
  | mk (cs : List (Key × Node α)) (d : Option (List α)) :
      (∀ p ∈ cs, WF p.2) →
      (∀ p ∈ cs, p.2.children = [] → p.2.data ≠ none) →
      d ≠ some [] →
      cs.Pairwise (fun p q => p.1.head? ≠ q.1.head?) →
      WF (Node.mk cs d)

theorem WF.children_wf {n : Node α} (h : WF n) : ∀ p ∈ n.children, WF p.2 := by
  cases h with
  | mk cs d h1 h2 h3 h4 => exact h1

theorem WF.children_filled {n : Node α} (h : WF n) :
    ∀ p ∈ n.children, p.2.children = [] → p.2.data ≠ none := by
  cases h with
  | mk cs d h1 h2 h3 h4 => exact h2

theorem WF.data_ok {n : Node α} (h : WF n) : n.data ≠ some [] := by
  cases h with
  | mk cs d h1 h2 h3 h4 => exact h3

theorem WF.radix {n : Node α} (h : WF n) :
    n.children.Pairwise (fun p q => p.1.head? ≠ q.1.head?) := by
  cases h with
  | mk cs d h1 h2 h3 h4 => exact h4

theorem WF.nodupKeys {n : Node α} (h : WF n) :
    n.children.Pairwise (fun p q => p.1 ≠ q.1) :=
  h.radix.imp (fun hr he => hr (congrArg List.head? he))

theorem WF.child {n : Node α} (h : WF n) {k : Key} {c : Node α}
    (hc : getChild n k = some c) : WF c :=
  h.children_wf _ (lookupC_eq_some_mem hc)

theorem WF_getNode :
    ∀ {p : List Key} {n m : Node α}, WF n → getNode n p = some m → WF m
  | [], n, m, h, hp => by
      rw [getNode] at hp
      cases hp
      exact h
  | l :: rest, n, m, h, hp => by
      rw [getNode] at hp
      cases hc : getChild n l with
      | none => rw [hc] at hp; simp at hp
      | some c =>
          rw [hc] at hp
          exact WF_getNode (h.child hc) hp

theorem WF.mk2 {n : Node α}
    (h1 : ∀ p ∈ n.children, WF p.2)
    (h2 : ∀ p ∈ n.children, p.2.children = [] → p.2.data ≠ none)
    (h3 : n.data ≠ some [])
    (h4 : n.children.Pairwise (fun p q => p.1.head? ≠ q.1.head?)) : WF n :=
  Node.eta n ▸ WF.mk n.children n.data h1 h2 h3 h4

/-! ### Where the traversal stops -/

/-- The arithmetic content of the `_processResults` switch. -/
theorem classify_cases (keyLen : Nat) (idx : Idx α) :
    (classify keyLen idx = .nonExists ∧ idx.ttlCharsMatch = 0) ∨
    (classify keyLen idx = .suffix ∧ idx.ttlCharsMatch ≠ 0 ∧
      idx.ttlCharsMatch < keyLen ∧ idx.charsMatch = idx.nodeKey.length) ∨
    (classify keyLen idx = .exact ∧ idx.ttlCharsMatch ≠ 0 ∧
      idx.ttlCharsMatch = keyLen ∧ idx.charsMatch = idx.nodeKey.length) ∨
    (classify keyLen idx = .existsCase ∧ idx.ttlCharsMatch ≠ 0 ∧
      ¬(idx.ttlCharsMatch < keyLen ∧ idx.charsMatch = idx.nodeKey.length) ∧
      ¬(idx.ttlCharsMatch = keyLen ∧ idx.charsMatch = idx.nodeKey.length)) := by
  unfold classify
  split_ifs with h1 h2 h3 h4
  · exact Or.inl ⟨rfl, h1⟩
  · exact Or.inr (Or.inl ⟨rfl, h1, h2.1, h2.2⟩)
  · exact Or.inr (Or.inr (Or.inl ⟨rfl, h1, h3.1, h3.2⟩))
  · exact Or.inr (Or.inr (Or.inr ⟨rfl, h1, h2, h3⟩))
  · exact absurd (Nat.pos_of_ne_zero h1) h4

/-- The stop state of `_traverse`: the final index is reachable at its
recorded path; the total match never exceeds the key length; and either the
last examined label matched fully — then the path ends with that label
whenever anything matched, and no child of the final node shares a first
character with the key remainder — or matching stopped strictly inside an
edge label of the final node at the recorded positive offset. -/
theorem traverseGo_stop {root : Node α} (hwf : WF root) (key : Key) :
    ∀ (fuel : Nat) (idx res : Idx α),
      traverseGo fuel key idx = some res →
      getNode root idx.path = some idx.node →
      idx.ttlCharsMatch ≤ key.length →
      idx.charsMatch = idx.nodeKey.length →
      (0 < idx.ttlCharsMatch → ∃ p0, idx.path = p0 ++ [idx.nodeKey]) →
      getNode root res.path = some res.node ∧
      res.ttlCharsMatch ≤ key.length ∧
      ((res.charsMatch = res.nodeKey.length ∧
        (0 < res.ttlCharsMatch → ∃ p0, res.path = p0 ++ [res.nodeKey]) ∧
        ∀ p ∈ res.node.children,
          commonPrefixLen (key.drop res.ttlCharsMatch) p.1 = 0) ∨
       (0 < res.charsMatch ∧ res.charsMatch < res.nodeKey.length ∧
        res.charsMatch ≤ res.ttlCharsMatch ∧
        res.charsMatch =
          commonPrefixLen (key.drop (res.ttlCharsMatch - res.charsMatch)) res.nodeKey ∧
        (∃ c, lookupC res.node.children res.nodeKey = some c))) := by
  intro fuel
  induction fuel with
  | zero =>
      intro idx res h
      simp [traverseGo] at h
  | succ fuel ih =>
      intro idx res h hnode httl hcm hpath
      rw [traverseGo] at h
      cases hfm : findMatch (key.drop idx.ttlCharsMatch) idx.node.children with
      | none =>
          have hstep : stepIdx key idx = idx := by
            rw [stepIdx, hfm]

          rw [hstep] at h
          have hng : ¬ goOn key idx.ttlCharsMatch idx := by
            rw [goOn]
            push_neg
            intro _ _ _
            rfl
          rw [if_neg hng] at h
          obtain rfl : idx = res := by simpa using h
          refine ⟨hnode, httl, Or.inl ⟨hcm, hpath, ?_⟩⟩
          exact (findMatch_eq_none_iff _ _).mp hfm
      | some x =>
          obtain ⟨l, c, i⟩ := x
          obtain ⟨hmem, hieq, hipos⟩ := findMatch_eq_some hfm
          have hWFnode : WF idx.node := WF_getNode hwf hnode
          have hlookup : lookupC idx.node.children l = some c :=
            lookupC_eq_of_mem_nodup hWFnode.nodupKeys hmem
          have hile : i ≤ key.length - idx.ttlCharsMatch := by
            have := commonPrefixLen_le_left (key.drop idx.ttlCharsMatch) l
            rw [List.length_drop] at this
            omega
          by_cases hful : i = l.length
          · have hstep : stepIdx key idx =
                ⟨c, l, i, idx.ttlCharsMatch + i, idx.path ++ [l]⟩ := by
              simp [stepIdx, hfm, hful]
            rw [hstep] at h
            have hnode2 : getNode root (idx.path ++ [l]) = some c := by
              rw [getNode_append, hnode]
              exact hlookup
            by_cases hgo : goOn key idx.ttlCharsMatch
                (⟨c, l, i, idx.ttlCharsMatch + i, idx.path ++ [l]⟩ : Idx α)
            · rw [if_pos hgo] at h
              obtain ⟨hlt, -, -, -⟩ := hgo
              exact ih _ res h hnode2 (by dsimp only at hlt ⊢; omega) hful
                (fun _ => ⟨idx.path, rfl⟩)
            · rw [if_neg hgo] at h
              obtain rfl : (⟨c, l, i, idx.ttlCharsMatch + i, idx.path ++ [l]⟩ : Idx α) = res := by
                simpa using h
              refine ⟨hnode2, by dsimp only; omega, Or.inl ⟨hful, fun _ => ⟨idx.path, rfl⟩, ?_⟩⟩
              rw [goOn] at hgo
              push_neg at hgo
              simp only at hgo
              by_cases hlen : idx.ttlCharsMatch + i < key.length
              · have hcne := hgo hlen
                by_cases hchild : 0 < c.children.length
                · have := hcne hchild hful
                  omega
                · intro p hp
                  have : c.children = [] := by
                    cases hcl : c.children
                    · rfl
                    · rw [hcl] at hchild; simp at hchild
                  rw [this] at hp
                  simp at hp
              · intro p hp
                have hdz : key.drop (idx.ttlCharsMatch + i) = [] := by
                  apply List.drop_eq_nil_of_le
                  omega
                rw [hdz]
                exact commonPrefixLen_nil_left _
          · have hstep : stepIdx key idx =
                ⟨idx.node, l, i, idx.ttlCharsMatch + i, idx.path⟩ := by
              simp [stepIdx, hfm, hful]
            rw [hstep] at h
            have hng : ¬ goOn key idx.ttlCharsMatch
                (⟨idx.node, l, i, idx.ttlCharsMatch + i, idx.path⟩ : Idx α) := by
              rw [goOn]
              push_neg
              intro _ _ hc2
              exact absurd hc2 hful
            rw [if_neg hng] at h
            obtain rfl : (⟨idx.node, l, i, idx.ttlCharsMatch + i, idx.path⟩ : Idx α) = res := by
              simpa using h
            have hilt : i < l.length := by
              have := commonPrefixLen_le_right (key.drop idx.ttlCharsMatch) l
              omega
            refine ⟨hnode, by dsimp only; omega,
              Or.inr ⟨hipos, hilt, by dsimp only; omega, ?_, ⟨c, hlookup⟩⟩⟩
            simp only
            rw [Nat.add_sub_cancel]
            exact hieq


/-! ### Preservation of the invariant by the insert handlers -/

theorem WF_updateAt {f : Node α → Node α} :
    ∀ {p : List Key} {n m : Node α}, WF n → getNode n p = some m →
      WF (f m) → ((f m).children = [] → (f m).data ≠ none) →
      WF (updateAt n p f)
  | [], n, m, h, hp, hf, _ => by
      rw [getNode] at hp
      cases hp
      rw [updateAt]
      exact hf
  | l :: rest, n, m, h, hp, hf, hne => by
      rw [getNode] at hp
      cases hc : getChild n l with
      | none =>
          rw [hc] at hp
          simp at hp
      | some c =>
          rw [hc] at hp
          have hp2 : getNode c rest = some m := hp
          rw [updateAt, hc]
          have hX : WF (updateAt c rest f) := WF_updateAt (h.child hc) hp2 hf hne
          have hXne : (updateAt c rest f).children = [] →
              (updateAt c rest f).data ≠ none := by
            cases rest with
            | nil =>
                rw [getNode] at hp2
                cases hp2
                rw [updateAt]
                exact hne
            | cons l2 rest2 =>
                rw [updateAt]
                cases hc2 : getChild c l2 with
                | none =>
                    exact h.children_filled (l, c) (lookupC_eq_some_mem hc)
                | some c2 =>
                    intro h2
                    exact absurd h2 (setC_ne_nil _ _ _)
          apply WF.mk2
          · intro q hq
            rcases mem_setC hq with h3 | h3
            · exact h.children_wf q h3
            · rw [h3]
              exact hX
          · intro q hq
            rcases mem_setC hq with h3 | h3
            · exact h.children_filled q h3
            · rw [h3]
              exact hXne
          · exact h.data_ok
          · exact radix_setC h.radix hc _

theorem WF_createNode (t : RadixTree α) (key : Key) (d : α) (idx : Idx α)
    (hwf : WF t.tree)
    (hnode : getNode t.tree idx.path = some idx.node)
    (hfresh : ∀ p ∈ idx.node.children,
      commonPrefixLen (key.drop idx.ttlCharsMatch) p.1 = 0) :
    WF (createNode t key d idx).tree := by
  unfold createNode
  dsimp only
  have hk : (if idx.ttlCharsMatch ≠ 0 then key.drop idx.ttlCharsMatch else key) =
      key.drop idx.ttlCharsMatch := by
    split_ifs with h
    · rfl
    · push_neg at h
      rw [h]
      simp
  rw [hk]
  have hWFm := WF_getNode hwf hnode
  apply WF_updateAt hwf hnode
  · apply WF.mk2
    · intro q hq
      rcases mem_setC hq with h3 | h3
      · exact hWFm.children_wf q h3
      · rw [h3]
        exact WF.mk [] (some [d]) (by simp) (by simp) (by simp) (by simp)
    · intro q hq
      rcases mem_setC hq with h3 | h3
      · exact hWFm.children_filled q h3
      · rw [h3]
        intro _
        simp [Node.data]
    · exact hWFm.data_ok
    · show List.Pairwise (fun p q : Key × Node α => p.1.head? ≠ q.1.head?)
        (setC idx.node.children (key.drop idx.ttlCharsMatch) (Node.mk [] (some [d])))
      cases hmem : lookupC idx.node.children (key.drop idx.ttlCharsMatch) with
      | some c0 => exact radix_setC hWFm.radix hmem _
      | none =>
          rw [setC_eq_append hmem]
          rw [List.pairwise_append]
          refine ⟨hWFm.radix, by simp, ?_⟩
          intro a ha b hb
          simp only [List.mem_singleton] at hb
          subst hb
          dsimp only
          cases hk0 : key.drop idx.ttlCharsMatch with
          | nil =>
              have hane : a.1 ≠ [] := by
                have := (lookupC_eq_none_iff.mp hmem) a ha
                rw [hk0] at this
                exact this
              cases hha : a.1 with
              | nil => exact absurd hha hane
              | cons x xs => simp [hha]
          | cons x xs =>
              have h0 : commonPrefixLen (key.drop idx.ttlCharsMatch) a.1 = 0 :=
                hfresh a ha
              rw [hk0] at h0
              exact Ne.symm (head?_ne_of_commonPrefixLen_zero (List.cons_ne_nil x xs) h0)
  · intro h2
    exact absurd h2 (setC_ne_nil _ _ _)

theorem WF_insertData (t : RadixTree α) (d : α) (idx : Idx α)
    (hwf : WF t.tree)
    (hnode : getNode t.tree idx.path = some idx.node) :
    WF (insertData t d idx).tree := by
  unfold insertData
  dsimp only
  have hWFm := WF_getNode hwf hnode
  have hdata : ∀ d2 : Option (List α), d2 ≠ some [] →
      WF (Node.mk idx.node.children d2) :=
    fun d2 h2 => WF.mk _ _ hWFm.children_wf hWFm.children_filled h2 hWFm.radix
  apply WF_updateAt hwf hnode
  · cases hd : idx.node.data with
    | none =>
        show WF (Node.mk idx.node.children (some [d]))
        exact hdata (some [d]) (by simp)
    | some l =>
        show WF (if l.length ≠ 0 then Node.mk idx.node.children (some (l ++ [d]))
          else Node.mk idx.node.children (some [d]))
        by_cases hl : l.length ≠ 0
        · rw [if_pos hl]
          exact hdata (some (l ++ [d])) (by simp)
        · rw [if_neg hl]
          exact hdata (some [d]) (by simp)
  · intro h2
    cases hd : idx.node.data with
    | none =>
        show (Node.mk idx.node.children (some [d])).data ≠ none
        simp [Node.data]
    | some l =>
        show (if l.length ≠ 0 then Node.mk idx.node.children (some (l ++ [d]))
          else Node.mk idx.node.children (some [d])).data ≠ none
        by_cases hl : l.length ≠ 0
        · rw [if_pos hl]
          simp [Node.data]
        · rw [if_neg hl]
          simp [Node.data]

theorem WF_splitNode (t : RadixTree α) (key : Key) (d : α) (idx : Idx α)
    (hwf : WF t.tree)
    (hnode : getNode t.tree idx.path = some idx.node)
    (httl : idx.ttlCharsMatch ≤ key.length)
    (hcm0 : 0 < idx.charsMatch)
    (hcml : idx.charsMatch < idx.nodeKey.length)
    (hcmt : idx.charsMatch ≤ idx.ttlCharsMatch)
    (hcpl : idx.charsMatch =
      commonPrefixLen (key.drop (idx.ttlCharsMatch - idx.charsMatch)) idx.nodeKey)
    (cOld : Node α)
    (hold : lookupC idx.node.children idx.nodeKey = some cOld) :
    WF (splitNode t key d idx).tree := by
  have hWFm := WF_getNode hwf hnode
  have hWFold : WF cOld := hWFm.children_wf _ (lookupC_eq_some_mem hold)
  have holdfilled : cOld.children = [] → cOld.data ≠ none :=
    hWFm.children_filled _ (lookupC_eq_some_mem hold)
  have hlen_dropi : (key.drop (idx.ttlCharsMatch - idx.charsMatch)).length =
      key.length - (idx.ttlCharsMatch - idx.charsMatch) := List.length_drop _ _
  have htk_len : ((key.drop (idx.ttlCharsMatch - idx.charsMatch)).take
      idx.charsMatch).length = idx.charsMatch := by
    rw [List.length_take, hlen_dropi]
    omega
  have h_take_eq : (key.drop (idx.ttlCharsMatch - idx.charsMatch)).take idx.charsMatch =
      idx.nodeKey.take idx.charsMatch := by
    have h2 := commonPrefixLen_take (key.drop (idx.ttlCharsMatch - idx.charsMatch))
      idx.nodeKey
    rw [← hcpl] at h2
    exact h2
  have htk_head : ((key.drop (idx.ttlCharsMatch - idx.charsMatch)).take
      idx.charsMatch).head? = idx.nodeKey.head? := by
    rw [h_take_eq]
    exact take_head? hcm0
  have htk_ne : (key.drop (idx.ttlCharsMatch - idx.charsMatch)).take idx.charsMatch ≠
      idx.nodeKey := by
    intro he
    have := congrArg List.length he
    rw [htk_len] at this
    omega
  have hfresh : lookupC idx.node.children
      ((key.drop (idx.ttlCharsMatch - idx.charsMatch)).take idx.charsMatch) = none := by
    cases hl : lookupC idx.node.children
        ((key.drop (idx.ttlCharsMatch - idx.charsMatch)).take idx.charsMatch) with
    | none => rfl
    | some c0 =>
        exfalso
        have hm1 := lookupC_eq_some_mem hl
        have hm2 := lookupC_eq_some_mem hold
        have hsym : Symmetric (fun p q : Key × Node α => p.1.head? ≠ q.1.head?) :=
          fun a b h => h.symm
        have hnex : ((key.drop (idx.ttlCharsMatch - idx.charsMatch)).take
            idx.charsMatch, c0) ≠ (idx.nodeKey, cOld) := by
          intro he
          exact htk_ne (congrArg Prod.fst he)
        exact (List.Pairwise.forall hsym hWFm.radix hm1 hm2 hnex) htk_head
  have hchild1 : getChild (setChild idx.node
      ((key.drop (idx.ttlCharsMatch - idx.charsMatch)).take idx.charsMatch)
      (if idx.ttlCharsMatch = key.length then Node.mk [] (some [d])
       else Node.mk [(key.drop idx.ttlCharsMatch, Node.mk [] (some [d]))] none))
      idx.nodeKey = some cOld := by
    rw [getChild_setChild_ne _ (fun he => htk_ne he.symm) _]
    exact hold
  have hdel : ∀ mid2 : Node α,
      delC (idx.node.children ++
        [((key.drop (idx.ttlCharsMatch - idx.charsMatch)).take idx.charsMatch, mid2)])
        idx.nodeKey =
      delC idx.node.children idx.nodeKey ++
        [((key.drop (idx.ttlCharsMatch - idx.charsMatch)).take idx.charsMatch, mid2)] := by
    intro mid2
    rw [delC, List.filter_append]
    congr 1
    simp [delC, htk_ne]
  -- properties of the re-parented intermediate node
  have hmid2 : ∀ mid : Node α,
      WF mid →
      (∀ q ∈ mid.children, q.1.head? ≠ (idx.nodeKey.drop idx.charsMatch).head?) →
      mid.data ≠ some [] →
      WF (setChild mid (idx.nodeKey.drop idx.charsMatch) cOld) ∧
        (setChild mid (idx.nodeKey.drop idx.charsMatch) cOld).children ≠ [] := by
    intro mid hmw hmheads hmdata
    constructor
    · apply WF.mk2
      · intro q hq
        rcases mem_setC hq with h3 | h3
        · exact hmw.children_wf q h3
        · rw [h3]
          exact hWFold
      · intro q hq
        rcases mem_setC hq with h3 | h3
        · exact hmw.children_filled q h3
        · rw [h3]
          exact holdfilled
      · exact hmdata
      · have hfr : lookupC mid.children (idx.nodeKey.drop idx.charsMatch) = none := by
          rw [lookupC_eq_none_iff]
          intro q hq he
          exact (hmheads q hq) (he ▸ rfl)
        rw [show (setChild mid (idx.nodeKey.drop idx.charsMatch) cOld).children =
            mid.children ++ [(idx.nodeKey.drop idx.charsMatch, cOld)] from
          setC_eq_append hfr cOld]
        rw [List.pairwise_append]
        refine ⟨hmw.radix, by simp, ?_⟩
        intro a ha b hb
        simp only [List.mem_singleton] at hb
        subst hb
        exact hmheads a ha
    · exact setC_ne_nil _ _ _
  -- the final rebuilt node is well-formed for any such intermediate node
  have hfinal : ∀ mid2 : Node α,
      WF mid2 → mid2.children ≠ [] →
      WF (Node.mk
        (delC idx.node.children idx.nodeKey ++
          [((key.drop (idx.ttlCharsMatch - idx.charsMatch)).take idx.charsMatch, mid2)])
        idx.node.data) := by
    intro mid2 hw2 hne2
    apply WF.mk
    · intro q hq
      rcases List.mem_append.mp hq with h3 | h3
      · exact hWFm.children_wf q (List.mem_of_mem_filter h3)
      · simp only [List.mem_singleton] at h3
        rw [h3]
        exact hw2
    · intro q hq
      rcases List.mem_append.mp hq with h3 | h3
      · exact hWFm.children_filled q (List.mem_of_mem_filter h3)
      · simp only [List.mem_singleton] at h3
        rw [h3]
        intro hc
        exact absurd hc hne2
    · exact hWFm.data_ok
    · rw [List.pairwise_append]
      refine ⟨hWFm.radix.sublist (List.filter_sublist _), by simp, ?_⟩
      intro a ha b hb
      simp only [List.mem_singleton] at hb
      subst hb
      dsimp only
      rw [htk_head]
      have hmema : a ∈ idx.node.children := List.mem_of_mem_filter ha
      have hanek : a.1 ≠ idx.nodeKey := by
        have := List.of_mem_filter ha
        simpa [delC] using this
      have hsym : Symmetric (fun p q : Key × Node α => p.1.head? ≠ q.1.head?) :=
        fun a b h => h.symm
      exact List.Pairwise.forall hsym hWFm.radix hmema (lookupC_eq_some_mem hold)
        (fun he => hanek (congrArg Prod.fst he))
  unfold splitNode
  dsimp only
  refine WF_updateAt hwf hnode ?_ ?_
  · simp only [splitApply, tempKeyOf, tempIndexKeyOf]
    rw [hchild1]
    show WF (Node.mk
      (delC (setC (setC idx.node.children
        ((key.drop (idx.ttlCharsMatch - idx.charsMatch)).take idx.charsMatch)
        (if idx.ttlCharsMatch = key.length then Node.mk [] (some [d])
         else Node.mk [(key.drop idx.ttlCharsMatch, Node.mk [] (some [d]))] none))
        ((key.drop (idx.ttlCharsMatch - idx.charsMatch)).take idx.charsMatch)
        (setChild
          (if idx.ttlCharsMatch = key.length then Node.mk [] (some [d])
           else Node.mk [(key.drop idx.ttlCharsMatch, Node.mk [] (some [d]))] none)
          (idx.nodeKey.drop idx.charsMatch) cOld))
        idx.nodeKey)
      idx.node.data)
    rw [setC_setC, setC_eq_append hfresh, hdel]
    by_cases htl : idx.ttlCharsMatch = key.length
    · rw [if_pos htl]
      have hm := hmid2 (Node.mk [] (some [d]))
        (WF.mk [] (some [d]) (by simp) (by simp) (by simp) (by simp))
        (by simp [Node.children]) (by simp [Node.data])
      exact hfinal _ hm.1 hm.2
    · rw [if_neg htl]
      have hdiv : (key.drop idx.ttlCharsMatch).head? ≠
          (idx.nodeKey.drop idx.charsMatch).head? := by
        have hb1 : commonPrefixLen (key.drop (idx.ttlCharsMatch - idx.charsMatch))
            idx.nodeKey < (key.drop (idx.ttlCharsMatch - idx.charsMatch)).length := by
          rw [← hcpl, hlen_dropi]
          omega
        have hb2 : commonPrefixLen (key.drop (idx.ttlCharsMatch - idx.charsMatch))
            idx.nodeKey < idx.nodeKey.length := by
          rw [← hcpl]
          omega
        have hget := commonPrefixLen_getElem_ne _ _ hb1 hb2
        rw [← hcpl] at hget
        rw [drop_head?, drop_head?]
        have hidx : (key.drop (idx.ttlCharsMatch - idx.charsMatch))[idx.charsMatch]? =
            key[idx.ttlCharsMatch]? := by
          rw [List.getElem?_drop]
          congr 1
          omega
        rw [← hidx]
        exact hget
      have hleafwf : WF (Node.mk ([] : List (Key × Node α)) (some [d])) :=
        WF.mk [] (some [d]) (by simp) (by simp) (by simp) (by simp)
      have hm := hmid2
        (Node.mk [(key.drop idx.ttlCharsMatch, Node.mk [] (some [d]))] none)
        (WF.mk _ _
          (by
            intro q hq
            simp only [List.mem_singleton] at hq
            rw [hq]
            exact hleafwf)
          (by
            intro q hq
            simp only [List.mem_singleton] at hq
            rw [hq]
            intro _
            simp [Node.data])
          (by simp) (by simp))
        (by
          intro q hq
          simp only [Node.children, List.mem_singleton] at hq
          rw [hq]
          exact hdiv)
        (by simp [Node.data])
      exact hfinal _ hm.1 hm.2
  · intro h2
    simp only [splitApply, tempKeyOf, tempIndexKeyOf] at h2
    rw [hchild1] at h2
    have h3 : delC (setC (setC idx.node.children
        ((key.drop (idx.ttlCharsMatch - idx.charsMatch)).take idx.charsMatch)
        (if idx.ttlCharsMatch = key.length then Node.mk [] (some [d])
         else Node.mk [(key.drop idx.ttlCharsMatch, Node.mk [] (some [d]))] none))
        ((key.drop (idx.ttlCharsMatch - idx.charsMatch)).take idx.charsMatch)
        (setChild
          (if idx.ttlCharsMatch = key.length then Node.mk [] (some [d])
           else Node.mk [(key.drop idx.ttlCharsMatch, Node.mk [] (some [d]))] none)
          (idx.nodeKey.drop idx.charsMatch) cOld))
        idx.nodeKey = [] := h2
    rw [setC_setC, setC_eq_append hfresh, hdel] at h3
    simp at h3


/-- At an `exists`-classified stop state the source's split rebuild computes
exactly the node the specification describes. -/
theorem splitApply_shape (key : Key) (d : α) (idx : Idx α)
    (hWFm : WF idx.node)
    (httl : idx.ttlCharsMatch ≤ key.length)
    (hcm0 : 0 < idx.charsMatch)
    (hcml : idx.charsMatch < idx.nodeKey.length)
    (hcmt : idx.charsMatch ≤ idx.ttlCharsMatch)
    (hcpl : idx.charsMatch =
      commonPrefixLen (key.drop (idx.ttlCharsMatch - idx.charsMatch)) idx.nodeKey)
    {cOld : Node α}
    (hold : lookupC idx.node.children idx.nodeKey = some cOld) :
    splitApply key d idx idx.node = specSplitNode key d idx cOld := by
  have hlen_dropi : (key.drop (idx.ttlCharsMatch - idx.charsMatch)).length =
      key.length - (idx.ttlCharsMatch - idx.charsMatch) := List.length_drop _ _
  have htk_len : (tempKeyOf key idx).length = idx.charsMatch := by
    rw [tempKeyOf, List.length_take, hlen_dropi]
    omega
  have h_take_eq : tempKeyOf key idx = idx.nodeKey.take idx.charsMatch := by
    have h2 := commonPrefixLen_take (key.drop (idx.ttlCharsMatch - idx.charsMatch))
      idx.nodeKey
    rw [← hcpl] at h2
    exact h2
  have htk_head : (tempKeyOf key idx).head? = idx.nodeKey.head? := by
    rw [h_take_eq]
    exact take_head? hcm0
  have htk_ne : tempKeyOf key idx ≠ idx.nodeKey := by
    intro he
    have := congrArg List.length he
    rw [htk_len] at this
    omega
  have hfresh : lookupC idx.node.children (tempKeyOf key idx) = none := by
    cases hl : lookupC idx.node.children (tempKeyOf key idx) with
    | none => rfl
    | some c0 =>
        exfalso
        have hm1 := lookupC_eq_some_mem hl
        have hm2 := lookupC_eq_some_mem hold
        have hsym : Symmetric (fun p q : Key × Node α => p.1.head? ≠ q.1.head?) :=
          fun a b h => h.symm
        have hnex : (tempKeyOf key idx, c0) ≠ (idx.nodeKey, cOld) := by
          intro he
          exact htk_ne (congrArg Prod.fst he)
        exact (List.Pairwise.forall hsym hWFm.radix hm1 hm2 hnex) htk_head
  have hchild1 : getChild (setChild idx.node (tempKeyOf key idx)
      (if idx.ttlCharsMatch = key.length then Node.mk [] (some [d])
       else Node.mk [(key.drop idx.ttlCharsMatch, Node.mk [] (some [d]))] none))
      idx.nodeKey = some cOld := by
    rw [getChild_setChild_ne _ (fun he => htk_ne he.symm) _]
    exact hold
  have hdel : ∀ mid2 : Node α,
      delC (idx.node.children ++ [(tempKeyOf key idx, mid2)]) idx.nodeKey =
      delC idx.node.children idx.nodeKey ++ [(tempKeyOf key idx, mid2)] := by
    intro mid2
    rw [delC, List.filter_append]
    congr 1
    simp [delC, htk_ne]
  simp only [splitApply]
  rw [hchild1]
  show Node.mk
      (delC (setC (setC idx.node.children (tempKeyOf key idx)
        (if idx.ttlCharsMatch = key.length then Node.mk [] (some [d])
         else Node.mk [(key.drop idx.ttlCharsMatch, Node.mk [] (some [d]))] none))
        (tempKeyOf key idx)
        (setChild
          (if idx.ttlCharsMatch = key.length then Node.mk [] (some [d])
           else Node.mk [(key.drop idx.ttlCharsMatch, Node.mk [] (some [d]))] none)
          (tempIndexKeyOf idx) cOld))
        idx.nodeKey)
      idx.node.data = specSplitNode key d idx cOld
  rw [setC_setC, setC_eq_append hfresh, hdel]
  by_cases htl : idx.ttlCharsMatch = key.length
  · simp only [specSplitNode, if_pos htl]
    rfl
  · have hdiv : (key.drop idx.ttlCharsMatch).head? ≠ (tempIndexKeyOf idx).head? := by
      simp only [tempIndexKeyOf]
      have hb1 : commonPrefixLen (key.drop (idx.ttlCharsMatch - idx.charsMatch))
          idx.nodeKey < (key.drop (idx.ttlCharsMatch - idx.charsMatch)).length := by
        rw [← hcpl, hlen_dropi]
        omega
      have hb2 : commonPrefixLen (key.drop (idx.ttlCharsMatch - idx.charsMatch))
          idx.nodeKey < idx.nodeKey.length := by
        rw [← hcpl]
        omega
      have hget := commonPrefixLen_getElem_ne _ _ hb1 hb2
      rw [← hcpl] at hget
      rw [drop_head?, drop_head?]
      have hidx : (key.drop (idx.ttlCharsMatch - idx.charsMatch))[idx.charsMatch]? =
          key[idx.ttlCharsMatch]? := by
        rw [List.getElem?_drop]
        congr 1
        omega
      rw [← hidx]
      exact hget
    have hkdne : key.drop idx.ttlCharsMatch ≠ tempIndexKeyOf idx := by
      intro he
      exact hdiv (he ▸ rfl)
    simp only [specSplitNode, if_neg htl]
    simp [setChild, Node.children, Node.data, setC, hkdne]

theorem WF_insert (t : RadixTree α) (hwf : WF t.tree) (k0 : Key) (d : α) :
    WF (t.insert k0 d).tree := by
  unfold RadixTree.insert
  dsimp only
  obtain ⟨hnode, httl, hdisj⟩ :=
    traverseGo_stop hwf (processKey t k0) ((processKey t k0).length + 1)
      (initIdx t.tree) (traverseFull t.tree (processKey t k0))
      (traverseFull_eq t.tree (processKey t k0)) rfl (Nat.zero_le _) rfl
      (fun h0 => absurd h0 (by simp [initIdx]))
  rcases classify_cases (processKey t k0).length (traverseFull t.tree (processKey t k0))
    with ⟨hc, h0⟩ | ⟨hc, h0, hlt, hcm⟩ | ⟨hc, h0, heq, hcm⟩ | ⟨hc, h0, hn1, hn2⟩
  · rw [hc]
    rcases hdisj with ⟨-, -, hfresh⟩ | ⟨hpos, -, hle, -⟩
    · exact WF_createNode t _ d _ hwf hnode hfresh
    · omega
  · rw [hc]
    rcases hdisj with ⟨-, -, hfresh⟩ | ⟨-, hlt2, -, -⟩
    · exact WF_createNode t _ d _ hwf hnode hfresh
    · omega
  · rw [hc]
    exact WF_insertData t d _ hwf hnode
  · rw [hc]
    rcases hdisj with ⟨hcme, -, -⟩ | ⟨hcm0, hcml, hcmt, hcpl, cOld, hold⟩
    · exfalso
      rcases Nat.lt_or_ge (traverseFull t.tree (processKey t k0)).ttlCharsMatch
        (processKey t k0).length with hl | hg
      · exact hn1 ⟨hl, hcme⟩
      · exact hn2 ⟨by omega, hcme⟩
    · exact WF_splitNode t _ d _ hwf hnode httl hcm0 hcml hcmt hcpl cOld hold

/-! ### Preservation of the invariant by removal and pruning -/

theorem mem_setC_nodup :
    ∀ {cs : List (Key × Node α)} {k : Key} {c : Node α} {p : Key × Node α},
      cs.Pairwise (fun p q => p.1 ≠ q.1) →
      p ∈ setC cs k c → p = (k, c) ∨ (p ∈ cs ∧ p.1 ≠ k)
  | [], k, c, p, _, h => by
      rw [setC] at h
      exact Or.inl (by simpa using h)
  | (k2, c2) :: rest, k, c, p, hnd, h => by
      obtain ⟨hhead, htail⟩ := List.pairwise_cons.mp hnd
      rw [setC] at h
      split_ifs at h with he
      · subst he
        rcases List.mem_cons.mp h with h1 | h1
        · exact Or.inl h1
        · refine Or.inr ⟨List.mem_cons_of_mem _ h1, ?_⟩
          exact Ne.symm (hhead p h1)
      · rcases List.mem_cons.mp h with h1 | h1
        · refine Or.inr ⟨h1 ▸ List.mem_cons_self _ _, ?_⟩
          rw [h1]
          exact he
        · rcases mem_setC_nodup htail h1 with h2 | h2
          · exact Or.inl h2
          · exact Or.inr ⟨List.mem_cons_of_mem _ h2.1, h2.2⟩

theorem cleanNode_WF {n : Node α}
    (h1 : ∀ p ∈ n.children, WF p.2)
    (h3 : n.data ≠ some [])
    (h4 : n.children.Pairwise (fun p q => p.1.head? ≠ q.1.head?)) :
    WF (cleanNode n) := by
  apply WF.mk
  · intro q hq
    exact h1 q (List.mem_of_mem_filter hq)
  · intro q hq hc
    have hkeep := List.of_mem_filter hq
    simp only [isEmptyN, Bool.not_eq_true', Bool.and_eq_false_iff] at hkeep
    rcases hkeep with hk1 | hk1
    · rw [List.isEmpty_eq_false] at hk1
      exact absurd hc hk1
    · intro hd
      rw [hd] at hk1
      simp at hk1
  · cases hd : n.data with
    | none => simp
    | some l =>
        cases l with
        | nil => exact absurd hd h3
        | cons x xs => simp
  · exact h4.sublist (List.filter_sublist _)

theorem cleanNode_data {n : Node α} (h : n.data ≠ some []) :
    (cleanNode n).data = n.data := by
  unfold cleanNode
  cases hd : n.data with
  | none => rfl
  | some l =>
      cases l with
      | nil => exact absurd hd h
      | cons x xs => rfl

/-- Weak well-formedness along a path of parents: everything is fully
well-formed except that children of nodes on the path may be empty (the
node whose data was just deleted and ancestors emptied below it). -/
def WFe : Node α → List Key → Prop
  | n, [] => (∀ p ∈ n.children, WF p.2) ∧ n.data ≠ some [] ∧
      n.children.Pairwise (fun p q => p.1.head? ≠ q.1.head?)
  | n, l :: rest => (∃ c, getChild n l = some c ∧ WFe c rest) ∧
      (∀ p ∈ n.children, p.1 ≠ l → WF p.2 ∧ (p.2.children = [] → p.2.data ≠ none)) ∧
      n.data ≠ some [] ∧
      n.children.Pairwise (fun p q => p.1.head? ≠ q.1.head?)

theorem WFe_nodupKeys {n : Node α} {p : List Key} (h : WFe n p) :
    n.children.Pairwise (fun p q => p.1 ≠ q.1) := by
  have h4 : n.children.Pairwise (fun p q => p.1.head? ≠ q.1.head?) := by
    cases p with
    | nil => exact h.2.2
    | cons l rest => exact h.2.2.2
  exact h4.imp (fun hr he => hr (congrArg List.head? he))

/-- Pruning the parents restores full well-formedness: each level replaces
its on-path child by the pruned version, then deletes every empty child. -/
theorem prunePath_WF : ∀ (p : List Key) (n : Node α), WFe n p → WF (prunePath n p)
  | [], n, h => by
      rw [prunePath]
      exact cleanNode_WF h.1 h.2.1 h.2.2
  | l :: rest, n, h => by
      obtain ⟨⟨c, hc, hce⟩, hoff, hd, hpw⟩ := h
      rw [prunePath, hc]
      have hX : WF (prunePath c rest) := prunePath_WF rest c hce
      apply cleanNode_WF
      · intro q hq
        rcases mem_setC_nodup (hpw.imp (fun hr he => hr (congrArg List.head? he))) hq
          with h2 | h2
        · rw [h2]
          exact hX
        · exact (hoff q h2.1 h2.2).1
      · exact hd
      · exact radix_setC hpw hc _

/-- Deleting the data list at the end of a path leaves the tree weakly
well-formed along the proper prefixes of the path. -/
theorem WFe_updateAt_clear :
    ∀ (p : List Key) (l : Key) (n m : Node α),
      WF n → getNode n (p ++ [l]) = some m →
      WFe (updateAt n (p ++ [l]) (fun x => Node.mk x.children none)) p
  | [], l, n, m, hwf, hp => by
      rw [List.nil_append, getNode] at hp
      cases hc : getChild n l with
      | none => rw [hc] at hp; simp at hp
      | some c =>
          rw [hc] at hp
          have hp3 : getNode c [] = some m := hp
          rw [getNode] at hp3
          cases hp3
          rw [List.nil_append, updateAt, hc]
          refine ⟨?_, hwf.data_ok, ?_⟩
          · intro q hq
            rcases mem_setC_nodup hwf.nodupKeys hq with h2 | h2
            · rw [h2]
              rw [updateAt]
              exact WF.mk _ _ (hwf.child hc).children_wf (hwf.child hc).children_filled
                (by simp) (hwf.child hc).radix
            · exact hwf.children_wf q h2.1
          · exact radix_setC hwf.radix hc _
  | l2 :: p2, l, n, m, hwf, hp => by
      rw [List.cons_append, getNode] at hp
      cases hc : getChild n l2 with
      | none => rw [hc] at hp; simp at hp
      | some c2 =>
          rw [hc] at hp
          have hp2 : getNode c2 (p2 ++ [l]) = some m := hp
          rw [List.cons_append, updateAt, hc]
          refine ⟨⟨updateAt c2 (p2 ++ [l]) (fun x => Node.mk x.children none),
            getChild_setChild_self n l2 _,
            WFe_updateAt_clear p2 l c2 m (hwf.child hc) hp2⟩, ?_, hwf.data_ok, ?_⟩
          · intro q hq hne
            rcases mem_setC_nodup hwf.nodupKeys hq with h2 | h2
            · exact absurd (congrArg Prod.fst h2) (by simpa using hne)
            · exact ⟨hwf.children_wf q h2.1, hwf.children_filled q h2.1⟩
          · exact radix_setC hwf.radix hc _

theorem pruneParents_concat (n : Node α) (p0 : List Key) (l : Key) :
    pruneParents n (p0 ++ [l]) = prunePath n p0 := by
  cases p0 with
  | nil => rfl
  | cons a as =>
      have h1 : pruneParents n ((a :: as) ++ [l]) =
          prunePath n (((a :: as) ++ [l]).dropLast) := rfl
      rw [h1, List.dropLast_concat]

theorem WF_remove [DecidableEq α] {t t' : RadixTree α} {k : Key} {d : Option α}
    {r : Option RemoveReport} (h : t.remove k d = .ok (t', r)) (hwf : WF t.tree) :
    WF t'.tree := by
  obtain ⟨hnode, httl, hdisj⟩ :=
    traverseGo_stop hwf (processKey t k) ((processKey t k).length + 1)
      (initIdx t.tree) (traverseFull t.tree (processKey t k))
      (traverseFull_eq t.tree (processKey t k)) rfl (Nat.zero_le _) rfl
      (fun h0 => absurd h0 (by simp [initIdx]))
  simp only [RadixTree.remove] at h
  rcases classify_cases (processKey t k).length (traverseFull t.tree (processKey t k))
    with ⟨hc, h0⟩ | ⟨hc, h0, hlt, hcm⟩ | ⟨hc, h0, heq, hcm⟩ | ⟨hc, h0, hn1, hn2⟩
  · rw [hc] at h
    simp only [Except.ok.injEq, Prod.mk.injEq] at h
    rw [← h.1]
    exact hwf
  · rw [hc] at h
    simp only [Except.ok.injEq, Prod.mk.injEq] at h
    rw [← h.1]
    exact hwf
  · -- exact match: _removeData runs
    rw [hc] at h
    have hend : ∃ p0, (traverseFull t.tree (processKey t k)).path =
        p0 ++ [(traverseFull t.tree (processKey t k)).nodeKey] := by
      rcases hdisj with ⟨-, hp, -⟩ | ⟨-, hlt2, -, -⟩
      · exact hp (Nat.pos_of_ne_zero h0)
      · omega
    obtain ⟨p0, hpe⟩ := hend
    have hprune : WF (pruneParents
        (updateAt t.tree (traverseFull t.tree (processKey t k)).path
          (fun n => Node.mk n.children none))
        (traverseFull t.tree (processKey t k)).path) := by
      rw [hpe, pruneParents_concat]
      apply prunePath_WF
      exact WFe_updateAt_clear p0 _ t.tree _ hwf (hpe ▸ hnode)
    have hnoprune : ∀ d2 : Option (List α), d2 ≠ some [] →
        (d2 = none → (traverseFull t.tree (processKey t k)).node.children ≠ []) →
        WF (updateAt t.tree (traverseFull t.tree (processKey t k)).path
          (fun n => Node.mk n.children d2)) := by
      intro d2 hd2 hne2
      have hWFm := WF_getNode hwf hnode
      apply WF_updateAt hwf hnode
      · exact WF.mk _ _ hWFm.children_wf hWFm.children_filled hd2 hWFm.radix
      · intro hc2 hd3
        have : d2 = none := hd3
        exact hne2 this hc2
    have h2 : removeData t d (traverseFull t.tree (processKey t k)) = .ok (t', r) := h
    clear h
    simp only [removeData] at h2
    split at h2
    · -- no value argument supplied
      split at h2
      · exact absurd h2 (by simp)
      · rename_i l hl
        split at h2
        · rename_i hemp
          simp only [Except.ok.injEq, Prod.mk.injEq] at h2
          rw [← h2.1]
          exact hprune
        · simp only [Except.ok.injEq, Prod.mk.injEq] at h2
          rw [← h2.1]
          rename_i hemp
          refine hnoprune none (by simp) (fun _ => ?_)
          intro hcn
          exact hemp (by rw [hcn]; rfl)
    · -- a value argument was supplied
      split at h2
      · exact absurd h2 (by simp)
      · rename_i v hv l hl
        split at h2
        · split at h2
          · split at h2
            · rename_i hemp
              simp only [Except.ok.injEq, Prod.mk.injEq] at h2
              rw [← h2.1]
              exact hprune
            · simp only [Except.ok.injEq, Prod.mk.injEq] at h2
              rw [← h2.1]
              rename_i hemp
              refine hnoprune none (by simp) (fun _ => ?_)
              intro hcn
              exact hemp (by rw [hcn]; rfl)
          · rename_i hlen
            simp only [Except.ok.injEq, Prod.mk.injEq] at h2
            rw [← h2.1]
            refine hnoprune _ ?_ (by simp)
            intro he
            rw [Option.some.injEq] at he
            exact hlen (by rw [he]; rfl)
        · simp only [Except.ok.injEq, Prod.mk.injEq] at h2
          rw [← h2.1]
          exact hwf
  · rw [hc] at h
    simp only [Except.ok.injEq, Prod.mk.injEq] at h
    rw [← h.1]
    exact hwf

/-- Every reachable tree aggregate has a well-formed root subtree. -/
theorem reachable_WF [DecidableEq α] {t : RadixTree α} (h : Reachable t) :
    WF t.tree := by
  induction h with
  | empty ks => exact WF.mk [] none (by simp) (by simp) (by simp) (by simp)
  | insert k d _ ih => exact WF_insert _ ih k d
  | remove k d r _ hok ih => exact WF_remove hok ih

/-- Dropping the `$`-freedom information: every `$`-free history is in
particular a history. -/
theorem reachableND_reachable [DecidableEq α] {t : RadixTree α}
    (h : ReachableND t) : Reachable t := by
  induction h with
  | empty ks => exact Reachable.empty ks
  | insert k d _ _ ih => exact Reachable.insert k d ih
  | remove k d r _ _ hok ih => exact Reachable.remove k d r ih hok

/-! ### The radix property of reachable trees -/

/-- The radix property as a standalone recursive predicate: at every node of
the tree, no two children's edge labels share the same first character. -/
inductive RadixProp : Node α → Prop where
  | mk (cs : List (Key × Node α)) (d : Option (List α)) :
      (∀ p ∈ cs, RadixProp p.2) →
      cs.Pairwise (fun p q => p.1.head? ≠ q.1.head?) →
      RadixProp (Node.mk cs d)

theorem WF_radixProp : ∀ {n : Node α}, WF n → RadixProp n := by
  intro n h
  induction h with
  | mk cs d h1 h2 h3 h4 ih => exact RadixProp.mk cs d ih h4


/-! ### Claims settled by direct computation or short arguments -/

/-- Sample tree for the removal crash: `insert("card",1)`, `insert("care",2)`
leaves the shared node `"car"` with children but no data list. -/
def sampleC2 : RadixTree Nat :=
  ((RadixTree.empty []).insert ['c', 'a', 'r', 'd'] 1).insert ['c', 'a', 'r', 'e'] 2

/-- C2: the claim that every `remove` runs to completion without raising is
wrong on the code: `remove("car")` on the sample tree classifies `exact` at
a node with children but no `$`, and `_removeData` reads `.length` of the
absent `$`, throwing a `TypeError` (modelled as `Except.error`). -/
theorem C2_remove_crash : removeCrashes sampleC2 ['c', 'a', 'r'] none = true := by
  rfl

/-- Sample tree for the keyword-counter divergence: `insert("card",1)`,
`insert("care",2)`, then `insert("car",3)`. -/
def sampleC3 : RadixTree Nat :=
  (((RadixTree.empty []).insert ['c', 'a', 'r', 'd'] 1).insert
      ['c', 'a', 'r', 'e'] 2).insert ['c', 'a', 'r'] 3

/-- C3: the claim that `keywordCount` always equals the full-scan count is
wrong on the code: the exact-match insert of `"car"` creates a fresh data
list on the previously data-less shared node but `_insertData` only
increments `dataCount`, so `keywordCount` stays 2 while a full scan finds 3
nodes with non-empty data (`dataCount` itself still agrees with its scan
here). -/
theorem C3_keyword_count_diverges :
    sampleC3.keywordCount = 2 ∧ scanKeywordCount 5 sampleC3.tree = 3 ∧
      sampleC3.dataCount = 3 ∧ scanDataCount 5 sampleC3.tree = 3 :=
  ⟨rfl, rfl, rfl, rfl⟩

/-- C4: whenever `remove` returns with one of the four failure reports, the
returned tree aggregate (structure, both counters, configuration) is exactly
the one passed in: every reporting branch of `_removeError` and the
value-not-found branch of `_removeData` return before any mutation. -/
theorem C4_reported_failure_no_mutation [DecidableEq α] (t t' : RadixTree α)
    (k : Key) (d : Option α) (rep : RemoveReport)
    (h : t.remove k d = .ok (t', some rep))
    (_hrep : rep = .keyNotFound ∨ rep = .keyIsPrefixOnly ∨
      rep = .keyPartialMatch ∨ rep = .valueNotFound) :
    t' = t := by
  clear _hrep
  simp only [RadixTree.remove] at h
  split at h
  · simp only [Except.ok.injEq, Prod.mk.injEq] at h
    exact h.1.symm
  · simp only [Except.ok.injEq, Prod.mk.injEq] at h
    exact h.1.symm
  · simp only [removeData] at h
    split at h
    · split at h
      · exact absurd h (by simp)
      · split at h <;> simp_all
    · split at h
      · exact absurd h (by simp)
      · split at h
        · split at h
          · split at h <;> simp_all
          · simp_all
        · simp only [Except.ok.injEq, Prod.mk.injEq] at h
          exact h.1.symm
  · simp only [Except.ok.injEq, Prod.mk.injEq] at h
    exact h.1.symm
  · simp only [Except.ok.injEq, Prod.mk.injEq] at h
    exact h.1.symm

theorem C4_reported_failure_no_mutation_witness :
    (RadixTree.empty [] : RadixTree Nat) = RadixTree.empty [] :=
  C4_reported_failure_no_mutation (RadixTree.empty []) (RadixTree.empty [])
    ['z'] none .keyNotFound (by rfl) (Or.inl rfl)

/-- C6: the `_processResults` switch always selects one of the four
classifications — `ttlCharsMatch` is a non-negative count, so the first and
fourth cases already cover everything and the `ClassificationFailure`
default is unreachable. -/
theorem C6_classification_exhaustive (root : Node α) (key : Key) :
    classify key.length (traverseFull root key) = TClass.nonExists ∨
      classify key.length (traverseFull root key) = TClass.suffix ∨
      classify key.length (traverseFull root key) = TClass.exact ∨
      classify key.length (traverseFull root key) = TClass.existsCase := by
  unfold classify
  split_ifs with h1 h2 h3 h4 <;> simp_all

/-- Sample tree for the amended scenario: `insert("car",1)`,
`insert("card",2)`, `insert("care",3)`. -/
def sampleC8 : RadixTree Nat :=
  (((RadixTree.empty []).insert ['c', 'a', 'r'] 1).insert
      ['c', 'a', 'r', 'd'] 2).insert ['c', 'a', 'r', 'e'] 3

/-- The edge labels of the children of the node at a path. -/
def labelsAt (n : Node α) (p : List Key) : Option (List Key) :=
  (getNode n p).map (fun m => m.children.map Prod.fst)

/-- C8 counterexample: after `insert("car",1)`, `insert("card",2)`,
`insert("care",3)` the code has `keywordCount = 3`, `dataCount = 3` and the
`"car"` node holds data `[1]` — the claimed `keywordCount == 2`,
`dataCount == 2` and data-less `"car"` node are false (value 1 was inserted
at exactly `"car"`). -/
theorem C8_scenario_counterexample :
    ¬(sampleC8.keywordCount = 2 ∧ sampleC8.dataCount = 2 ∧
        dataAt sampleC8.tree [['c', 'a', 'r']] = none) := by
  decide

/-- C8 amended: the sequence produces a shared `"car"` node with children
`"d"` and `"e"`, the `"car"` node holding data `[1]`, and both counters
equal to 3. -/
theorem C8_scenario_amended :
    labelsAt sampleC8.tree [] = some [['c', 'a', 'r']] ∧
      labelsAt sampleC8.tree [['c', 'a', 'r']] = some [['d'], ['e']] ∧
      dataAt sampleC8.tree [['c', 'a', 'r']] = some [1] ∧
      dataAt sampleC8.tree [['c', 'a', 'r'], ['d']] = some [2] ∧
      dataAt sampleC8.tree [['c', 'a', 'r'], ['e']] = some [3] ∧
      sampleC8.keywordCount = 3 ∧ sampleC8.dataCount = 3 := by
  decide

/-- C9: every `insert`/`remove` traversal terminates, with recursion depth
bounded by the key length: the progress guard admits another round only
while `ttlCharsMatch` strictly increased and stayed below the key length,
so any fuel exceeding the key length completes the traversal. -/
theorem C9_traversal_terminates (root : Node α) (key : Key) (fuel : Nat)
    (h : key.length < fuel) :
    (traverseGo fuel key (initIdx root)).isSome = true :=
  traverseGo_isSome_of_fuel fuel key (initIdx root) (by simpa [initIdx] using h)

theorem C9_traversal_terminates_witness :
    (traverseGo 2 ['a'] (initIdx (Node.mk [] none : Node Nat))).isSome = true :=
  C9_traversal_terminates (Node.mk [] none) ['a'] 2 (by decide)


/-- C5: after any finite sequence of inserts and removes starting from the
empty tree, at every node no two children's edge labels share a first
character (so the scan of `_traverse` has at most one candidate child).
Inserts only add children whose first character is fresh at their node
(`_createNode`) or replace an edge by a prefix with the same first character
(`_splitNode`); removals only delete children. -/
theorem C5_radix_property [DecidableEq α] (t : RadixTree α) (h : Reachable t) :
    RadixProp t.tree :=
  WF_radixProp (reachable_WF h)

theorem C5_radix_property_witness :
    RadixProp ((((RadixTree.empty []).insert ['c', 'a', 'r', 't'] 1).insert
      ['c', 'a', 's', 't'] 2) : RadixTree Nat).tree :=
  C5_radix_property _ (Reachable.insert _ _ (Reachable.insert _ _ (Reachable.empty [])))

/-! ### Lookup after filtering and pruning -/

theorem nodup_setC :
    ∀ {cs : List (Key × Node α)} {k : Key} (c : Node α),
      cs.Pairwise (fun p q => p.1 ≠ q.1) →
      (setC cs k c).Pairwise (fun p q => p.1 ≠ q.1)
  | [], k, c, _ => by simp [setC]
  | (k2, c2) :: rest, k, c, hnd => by
      obtain ⟨hhead, htail⟩ := List.pairwise_cons.mp hnd
      rw [setC]
      split_ifs with he
      · subst he
        exact List.pairwise_cons.mpr ⟨hhead, htail⟩
      · refine List.pairwise_cons.mpr ⟨?_, nodup_setC c htail⟩
        intro p hp
        rcases mem_setC hp with h2 | h2
        · exact hhead p h2
        · rw [h2]
          exact he

theorem lookupC_filter_dropped {f : Key × Node α → Bool} :
    ∀ {cs : List (Key × Node α)} {k : Key} {c : Node α},
      cs.Pairwise (fun p q => p.1 ≠ q.1) →
      lookupC cs k = some c → f (k, c) = false →
      lookupC (cs.filter f) k = none
  | [], k, c, _, h, _ => by simp [lookupC] at h
  | (k2, c2) :: rest, k, c, hnd, h, hf => by
      obtain ⟨hhead, htail⟩ := List.pairwise_cons.mp hnd
      rw [lookupC] at h
      by_cases he : k2 = k
      · subst he
        rw [if_pos rfl] at h
        obtain rfl : c2 = c := by simpa using h
        rw [List.filter_cons, if_neg (by simp [hf])]
        rw [lookupC_eq_none_iff]
        intro p hp
        exact Ne.symm (hhead p (List.mem_of_mem_filter hp))
      · rw [if_neg he] at h
        rw [List.filter_cons]
        split_ifs with hf2
        · rw [lookupC, if_neg he]
          exact lookupC_filter_dropped htail h hf
        · exact lookupC_filter_dropped htail h hf

theorem lookupC_filter_kept {f : Key × Node α → Bool} :
    ∀ {cs : List (Key × Node α)} {k : Key} {c : Node α},
      cs.Pairwise (fun p q => p.1 ≠ q.1) →
      lookupC cs k = some c → f (k, c) = true →
      lookupC (cs.filter f) k = some c
  | [], k, c, _, h, _ => by simp [lookupC] at h
  | (k2, c2) :: rest, k, c, hnd, h, hf => by
      obtain ⟨hhead, htail⟩ := List.pairwise_cons.mp hnd
      rw [lookupC] at h
      by_cases he : k2 = k
      · subst he
        rw [if_pos rfl] at h
        obtain rfl : c2 = c := by simpa using h
        rw [List.filter_cons, if_pos hf]
        rw [lookupC, if_pos rfl]
      · rw [if_neg he] at h
        rw [List.filter_cons]
        split_ifs with hf2
        · rw [lookupC, if_neg he]
          exact lookupC_filter_kept htail h hf
        · exact lookupC_filter_kept htail h hf

/-- After the data node at the end of the path has become fully empty,
pruning the parents removes it: the full path no longer resolves. -/
theorem getNode_prunePath_empty :
    ∀ (p0 : List Key) (n : Node α) {lk : Key},
      WFe n p0 →
      getNode n (p0 ++ [lk]) = some (Node.mk [] none) →
      getNode (prunePath n p0) (p0 ++ [lk]) = none
  | [], n, lk, hwfe, hg => by
      rw [List.nil_append] at hg ⊢
      rw [getNode] at hg
      cases hc : getChild n lk with
      | none => rw [hc] at hg; simp at hg
      | some c =>
          rw [hc] at hg
          have hg2 : getNode c [] = some (Node.mk [] none) := hg
          rw [getNode] at hg2
          obtain rfl : c = Node.mk [] none := by simpa using hg2
          have hnd : n.children.Pairwise (fun p q => p.1 ≠ q.1) :=
            hwfe.2.2.imp (fun hr he => hr (congrArg List.head? he))
          have hlook : lookupC n.children lk = some (Node.mk [] none) := hc
          have hdropped : getChild (cleanNode n) lk = none := by
            show lookupC (n.children.filter (fun p => !(isEmptyN p.2))) lk = none
            exact lookupC_filter_dropped hnd hlook rfl
          show getNode (cleanNode n) [lk] = none
          rw [getNode, hdropped]
  | l :: rest0, n, lk, hwfe, hg => by
      obtain ⟨⟨c, hc, hce⟩, hoff, hd, hpw⟩ := hwfe
      rw [List.cons_append] at hg ⊢
      rw [getNode] at hg
      rw [hc] at hg
      have hg2 : getNode c (rest0 ++ [lk]) = some (Node.mk [] none) := hg
      rw [prunePath, hc]
      have hnd : n.children.Pairwise (fun p q => p.1 ≠ q.1) :=
        hpw.imp (fun hr he => hr (congrArg List.head? he))
      have hndX : (setC n.children l (prunePath c rest0)).Pairwise
          (fun p q => p.1 ≠ q.1) := nodup_setC _ hnd
      have hlook : lookupC (setC n.children l (prunePath c rest0)) l =
          some (prunePath c rest0) := lookupC_setC_self _ _ _
      cases hkeep : isEmptyN (prunePath c rest0) with
      | true =>
          have hdropped : getChild (cleanNode (setChild n l (prunePath c rest0)))
              l = none := by
            show lookupC ((setC n.children l (prunePath c rest0)).filter
              (fun p => !(isEmptyN p.2))) l = none
            exact lookupC_filter_dropped hndX hlook (by simp [hkeep])
          rw [getNode, hdropped]
      | false =>
          have hkept : getChild (cleanNode (setChild n l (prunePath c rest0)))
              l = some (prunePath c rest0) := by
            show lookupC ((setC n.children l (prunePath c rest0)).filter
              (fun p => !(isEmptyN p.2))) l = some (prunePath c rest0)
            exact lookupC_filter_kept hndX hlook (by simp [hkeep])
          rw [getNode, hkept]
          exact getNode_prunePath_empty rest0 c hce hg2

/-! ### First-occurrence facts about `findIdx`/`eraseIdx`/`splice` -/

theorem findIdx_eq_length_left [DecidableEq α] (v : α) :
    ∀ (l1 l2 : List α), v ∉ l1 →
      (l1 ++ v :: l2).findIdx (fun x => x = v) = l1.length
  | [], l2, _ => by simp [List.findIdx_cons]
  | a :: l1, l2, h => by
      have ha : a ≠ v := fun he => h (he ▸ List.mem_cons_self _ _)
      have h1 : v ∉ l1 := fun hm => h (List.mem_cons_of_mem _ hm)
      simp [List.findIdx_cons, ha, findIdx_eq_length_left v l1 l2 h1]

theorem eraseIdx_length_left :
    ∀ (l1 : List α) (v : α) (l2 : List α),
      (l1 ++ v :: l2).eraseIdx l1.length = l1 ++ l2
  | [], v, l2 => rfl
  | a :: l1, v, l2 => by
      show (a :: (l1 ++ v :: l2)).eraseIdx (l1.length + 1) = a :: (l1 ++ l2)
      rw [List.eraseIdx_cons_succ, eraseIdx_length_left l1 v l2]

/-! ### Round trip of a fresh insert: composition and restoration lemmas -/

theorem setChild_setChild (n : Node α) (l : Key) (a b : Node α) :
    setChild (setChild n l a) l b = setChild n l b := by
  show Node.mk (setC (setC n.children l a) l b) n.data = Node.mk (setC n.children l b) n.data
  rw [setC_setC]

theorem updateAt_congr {f g2 : Node α → Node α} (hfg : ∀ m, f m = g2 m) :
    ∀ (p : List Key) (n : Node α), updateAt n p f = updateAt n p g2
  | [], n => hfg n
  | l :: rest, n => by
      rw [updateAt, updateAt]
      cases hc : getChild n l with
      | none => rfl
      | some c =>
          show setChild n l (updateAt c rest f) = setChild n l (updateAt c rest g2)
          rw [updateAt_congr hfg rest c]

theorem updateAt_updateAt (f g2 : Node α → Node α) :
    ∀ (p : List Key) (n : Node α),
      updateAt (updateAt n p f) p g2 = updateAt n p (fun x => g2 (f x))
  | [], n => rfl
  | l :: rest, n => by
      cases hc : getChild n l with
      | none =>
          have h1 : updateAt n (l :: rest) f = n := by rw [updateAt, hc]
          have h2 : updateAt n (l :: rest) (fun x => g2 (f x)) = n := by
            rw [updateAt, hc]
          rw [h1, h2, updateAt, hc]
      | some c =>
          have h1 : updateAt n (l :: rest) f = setChild n l (updateAt c rest f) := by
            rw [updateAt, hc]
          have h2 : updateAt n (l :: rest) (fun x => g2 (f x)) =
              setChild n l (updateAt c rest (fun x => g2 (f x))) := by
            rw [updateAt, hc]
          rw [h1, h2, updateAt, getChild_setChild_self]
          show setChild (setChild n l (updateAt c rest f)) l
              (updateAt (updateAt c rest f) rest g2) =
            setChild n l (updateAt c rest fun x => g2 (f x))
          rw [updateAt_updateAt f g2 rest c, setChild_setChild]

theorem updateAt_setChild_children_pos (k : Key) (L : Node α) :
    ∀ (p : List Key) (n : Node α), 0 < n.children.length →
      0 < (updateAt n p (fun m => setChild m k L)).children.length
  | [], n, _ => by
      show 0 < (setC n.children k L).length
      cases hsc : setC n.children k L with
      | nil => exact absurd hsc (setC_ne_nil _ _ _)
      | cons a as => simp
  | r :: rest, n, h => by
      rw [updateAt]
      cases hc : getChild n r with
      | none => exact h
      | some c =>
          show 0 < (setC n.children r
            (updateAt c rest (fun m => setChild m k L))).length
          cases hsc : setC n.children r (updateAt c rest (fun m => setChild m k L)) with
          | nil => exact absurd hsc (setC_ne_nil _ _ _)
          | cons a as => simp

/-- Writing the fresh leaf and then deleting its data key amounts to writing
an entirely empty child. -/
theorem updateAt_then_clear (L : Node α) (hLc : L.children = []) (k2 : Key) :
    ∀ (p : List Key) (T : Node α),
      updateAt (updateAt T p (fun m => setChild m k2 L)) (p ++ [k2])
          (fun n => Node.mk n.children none) =
        updateAt T p (fun m => setChild m k2 (Node.mk [] none)) := by
  intro p T
  rw [updateAt_append, updateAt_updateAt]
  apply updateAt_congr
  intro m
  have hgc2 : getChild (setChild m k2 L) k2 = some L := getChild_setChild_self _ _ _
  show (match getChild (setChild m k2 L) k2 with
    | none => setChild m k2 L
    | some c => setChild (setChild m k2 L) k2 (Node.mk c.children none)) =
    setChild m k2 (Node.mk [] none)
  rw [hgc2]
  show setChild (setChild m k2 L) k2 (Node.mk L.children none) =
    setChild m k2 (Node.mk [] none)
  rw [setChild_setChild, hLc]

theorem filter_nonempty_children {n : Node α} (h : WF n) :
    n.children.filter (fun p => !(isEmptyN p.2)) = n.children := by
  rw [List.filter_eq_self]
  intro p hp
  have hf := h.children_filled p hp
  rw [Bool.not_eq_true']
  cases hcl : p.2.children with
  | cons a as => simp [isEmptyN, hcl]
  | nil =>
      have hdn := hf hcl
      cases hdd : p.2.data with
      | none => exact absurd hdd hdn
      | some ll => simp [isEmptyN, hdd]

/-- A fully well-formed node has no empty children, so the clean-up pass of
`_removeEmptyParents` leaves it unchanged. -/
theorem cleanNode_eq_self {n : Node α} (h : WF n) : cleanNode n = n := by
  have h2 : (cleanNode n).data = n.data := cleanNode_data h.data_ok
  have h3 : (cleanNode n).children = n.children := filter_nonempty_children h
  rw [← Node.eta (cleanNode n), h2, h3, Node.eta]

/-- Clearing a freshly written empty child and pruning the parents restores
the original tree exactly. -/
theorem prunePath_restore :
    ∀ (p0 : List Key) (T : Node α) {k2 : Key} {m0 : Node α},
      WF T → getNode T p0 = some m0 → lookupC m0.children k2 = none →
      prunePath (updateAt T p0 (fun m => setChild m k2 (Node.mk [] none))) p0 = T
  | [], T, k2, m0, hwf, hg, hfresh => by
      rw [getNode] at hg
      obtain rfl : T = m0 := by simpa using hg
      show cleanNode (setChild T k2 (Node.mk [] none)) = T
      have happ : setC T.children k2 (Node.mk [] none) =
          T.children ++ [(k2, Node.mk [] none)] := setC_eq_append hfresh _
      have hchf : (cleanNode (setChild T k2 (Node.mk [] none))).children =
          T.children := by
        show (setC T.children k2 (Node.mk [] none)).filter
          (fun p => !(isEmptyN p.2)) = T.children
        rw [happ, List.filter_append, filter_nonempty_children hwf]
        simp [isEmptyN, Node.children, Node.data]
      have hdat : (cleanNode (setChild T k2 (Node.mk [] none))).data = T.data :=
        cleanNode_data hwf.data_ok
      rw [← Node.eta (cleanNode (setChild T k2 (Node.mk [] none))), hchf, hdat, Node.eta]
  | l :: rest, T, k2, m0, hwf, hg, hfresh => by
      rw [getNode] at hg
      cases hc : getChild T l with
      | none => rw [hc] at hg; simp at hg
      | some c =>
          rw [hc] at hg
          have hg2 : getNode c rest = some m0 := hg
          rw [updateAt, hc, prunePath, getChild_setChild_self]
          show cleanNode (setChild
            (setChild T l (updateAt c rest (fun m => setChild m k2 (Node.mk [] none)))) l
            (prunePath (updateAt c rest (fun m => setChild m k2 (Node.mk [] none))) rest)) = T
          rw [prunePath_restore rest c (hwf.child hc) hg2 hfresh, setChild_setChild]
          have hsc : setChild T l c = T := by
            show Node.mk (setC T.children l c) T.data = T
            rw [setC_self hc]
            exact Node.eta T
          rw [hsc]
          exact cleanNode_eq_self hwf

/-- All children of the stop node share no first character with the key
remainder, so the fresh label (the full remainder) is not present. -/
theorem lookupC_drop_fresh {key : Key} {ttl : Nat} {cs : List (Key × Node α)}
    (hlen : ttl < key.length)
    (hall : ∀ p ∈ cs, commonPrefixLen (key.drop ttl) p.1 = 0) :
    lookupC cs (key.drop ttl) = none := by
  rw [lookupC_eq_none_iff]
  intro p hp he
  have h2 := hall p hp
  rw [← he, commonPrefixLen_self] at h2
  have h3 := congrArg List.length he
  rw [List.length_drop] at h3
  omega

theorem findMatch_append {tk : Key} :
    ∀ {cs : List (Key × Node α)}, findMatch tk cs = none →
      ∀ (rest : List (Key × Node α)), findMatch tk (cs ++ rest) = findMatch tk rest
  | [], _, rest => rfl
  | (l, c) :: cs, h, rest => by
      simp only [findMatch] at h
      rw [List.cons_append]
      simp only [findMatch]
      by_cases hi : 0 < commonPrefixLen tk l
      · rw [if_pos hi] at h
        exact absurd h (by simp)
      · rw [if_neg hi] at h
        rw [if_neg hi]
        exact findMatch_append h rest

/-- Replacing the child under an existing label changes `findMatch` only in
the returned child, never in the found label or the match length. -/
theorem findMatch_setC {tk r0 : Key} {X : Node α} :
    ∀ {cs : List (Key × Node α)} {l : Key} {c : Node α} {i : Nat},
      cs.Pairwise (fun p q => p.1 ≠ q.1) →
      findMatch tk cs = some (l, c, i) →
      findMatch tk (setC cs r0 X) = some (l, if l = r0 then X else c, i)
  | [], l, c, i, _, h => by simp [findMatch] at h
  | (k2, c2) :: cs, l, c, i, hnd, h => by
      obtain ⟨hhead, htail⟩ := List.pairwise_cons.mp hnd
      simp only [findMatch] at h
      by_cases hi : 0 < commonPrefixLen tk k2
      · rw [if_pos hi] at h
        obtain ⟨rfl, rfl, rfl⟩ : k2 = l ∧ c2 = c ∧ commonPrefixLen tk k2 = i := by
          simpa using h
        by_cases he : k2 = r0
        · subst he
          rw [setC, if_pos rfl]
          simp only [findMatch]
          rw [if_pos hi]
          simp
        · rw [setC, if_neg he]
          simp only [findMatch]
          rw [if_pos hi, if_neg he]
      · rw [if_neg hi] at h
        have hmem := (findMatch_eq_some h).1
        have hnel : l ≠ k2 := by
          intro he2
          exact hhead (l, c) hmem (by rw [he2])
        by_cases he : k2 = r0
        · subst he
          rw [setC, if_pos rfl]
          simp only [findMatch]
          rw [if_neg hi, h, if_neg hnel]
        · rw [setC, if_neg he]
          simp only [findMatch]
          rw [if_neg hi]
          exact findMatch_setC htail h

/-- The traversal only ever pushes labels onto the recorded path. -/
theorem traverseGo_path_extends :
    ∀ (fuel : Nat) (key : Key) (idx idx0 : Idx α),
      traverseGo fuel key idx = some idx0 → ∃ ext, idx0.path = idx.path ++ ext := by
  intro fuel
  induction fuel with
  | zero => intro key idx idx0 h; simp [traverseGo] at h
  | succ fuel ih =>
      intro key idx idx0 h
      rw [traverseGo] at h
      have hstep : ∃ e1, (stepIdx key idx).path = idx.path ++ e1 := by
        unfold stepIdx
        cases hfm : findMatch (key.drop idx.ttlCharsMatch) idx.node.children with
        | none => exact ⟨[], by simp⟩
        | some x =>
            obtain ⟨l, c, i⟩ := x
            by_cases hi : i = l.length
            · exact ⟨[l], by simp [hi]⟩
            · exact ⟨[], by simp [hi]⟩
      obtain ⟨e1, he1⟩ := hstep
      by_cases hg : goOn key idx.ttlCharsMatch (stepIdx key idx)
      · rw [if_pos hg] at h
        obtain ⟨e2, he2⟩ := ih key _ idx0 h
        exact ⟨e1 ++ e2, by rw [he2, he1, List.append_assoc]⟩
      · rw [if_neg hg] at h
        obtain rfl : stepIdx key idx = idx0 := by simpa using h
        exact ⟨e1, he1⟩

/-- Traversal simulation for a fresh insert: when the original traversal
stops in a full-label-match state whose node has no child overlapping the
key remainder (the non-existent and suffix outcomes), re-traversing the same
key after `_createNode` wrote the fresh leaf under the remainder label
descends the same path and then steps into the new leaf, stopping there with
the whole key consumed. -/
theorem traverseGo_sim {key : Key} (L : Node α) :
    ∀ (fuel : Nat) (idx idx0 : Idx α),
      traverseGo fuel key idx = some idx0 →
      WF idx.node →
      idx.charsMatch = idx.nodeKey.length →
      idx.ttlCharsMatch < key.length →
      idx0.charsMatch = idx0.nodeKey.length →
      idx0.ttlCharsMatch < key.length →
      (∀ p ∈ idx0.node.children,
        commonPrefixLen (key.drop idx0.ttlCharsMatch) p.1 = 0) →
      ∀ rel, idx0.path = idx.path ++ rel →
      getNode idx.node rel = some idx0.node →
      traverseGo (fuel + 1) key
        { idx with node := (updateAt idx.node rel
            (fun m => setChild m (key.drop idx0.ttlCharsMatch) L)) } =
      some ⟨L, key.drop idx0.ttlCharsMatch,
        (key.drop idx0.ttlCharsMatch).length, key.length,
        idx0.path ++ [key.drop idx0.ttlCharsMatch]⟩ := by
  intro fuel
  induction fuel with
  | zero => intro idx idx0 h; simp [traverseGo] at h
  | succ fuel ih =>
      intro idx idx0 h hwf hcm httl hcm0 httl0 hall rel hrel hgn
      rw [traverseGo] at h
      cases hfm : findMatch (key.drop idx.ttlCharsMatch) idx.node.children with
      | none =>
          -- the original traversal already stops here: the new leaf is found
          have hstep : stepIdx key idx = idx := by rw [stepIdx, hfm]
          rw [hstep] at h
          have hng : ¬ goOn key idx.ttlCharsMatch idx := by
            rw [goOn]
            push_neg
            intro _ _ _
            rfl
          rw [if_neg hng] at h
          obtain rfl : idx = idx0 := by simpa using h
          obtain rfl : rel = [] := by
            have h2 := congrArg List.length hrel
            rw [List.length_append] at h2
            cases rel with
            | nil => rfl
            | cons a as => simp at h2
          have hfresh : lookupC idx.node.children (key.drop idx.ttlCharsMatch) = none :=
            lookupC_drop_fresh httl hall
          have hk2pos : 0 < (key.drop idx.ttlCharsMatch).length := by
            rw [List.length_drop]
            omega
          have hfm3 : findMatch (key.drop idx.ttlCharsMatch)
              (updateAt idx.node [] (fun m =>
                setChild m (key.drop idx.ttlCharsMatch) L)).children =
              some (key.drop idx.ttlCharsMatch, L,
                (key.drop idx.ttlCharsMatch).length) := by
            show findMatch (key.drop idx.ttlCharsMatch)
              (setC idx.node.children (key.drop idx.ttlCharsMatch) L) = _
            rw [setC_eq_append hfresh, findMatch_append hfm]
            simp only [findMatch]
            rw [commonPrefixLen_self, if_pos hk2pos]
          have hsum : idx.ttlCharsMatch + (key.drop idx.ttlCharsMatch).length =
              key.length := by
            rw [List.length_drop]
            omega
          have hstep2 : stepIdx key { idx with node := (updateAt idx.node []
              (fun m => setChild m (key.drop idx.ttlCharsMatch) L)) } =
              ⟨L, key.drop idx.ttlCharsMatch, (key.drop idx.ttlCharsMatch).length,
                key.length, idx.path ++ [key.drop idx.ttlCharsMatch]⟩ := by
            simp [stepIdx, hfm3]
            omega
          have hng2 : ¬ goOn key ({ idx with node := (updateAt idx.node []
              (fun m => setChild m (key.drop idx.ttlCharsMatch) L)) }).ttlCharsMatch
              (⟨L, key.drop idx.ttlCharsMatch, (key.drop idx.ttlCharsMatch).length,
                key.length, idx.path ++ [key.drop idx.ttlCharsMatch]⟩ : Idx α) := by
            intro hgo
            have h3 := hgo.1
            dsimp only at h3
            omega
          rw [traverseGo, hstep2, if_neg hng2]
      | some x =>
          obtain ⟨l, c, i⟩ := x
          obtain ⟨hmem, hieq, hipos⟩ := findMatch_eq_some hfm
          have hlookup : lookupC idx.node.children l = some c :=
            lookupC_eq_of_mem_nodup hwf.nodupKeys hmem
          by_cases hful : i = l.length
          · have hstep : stepIdx key idx =
                ⟨c, l, i, idx.ttlCharsMatch + i, idx.path ++ [l]⟩ := by
              simp [stepIdx, hfm, hful]
            rw [hstep] at h
            by_cases hgo : goOn key idx.ttlCharsMatch
                (⟨c, l, i, idx.ttlCharsMatch + i, idx.path ++ [l]⟩ : Idx α)
            · -- the original traversal descended and kept going
              rw [if_pos hgo] at h
              obtain ⟨ext, hext⟩ := traverseGo_path_extends fuel key _ idx0 h
              obtain rfl : rel = l :: ext := by
                have h2 : idx.path ++ rel = idx.path ++ (l :: ext) := by
                  rw [← hrel, hext, List.append_assoc]
                  rfl
                exact List.append_cancel_left h2
              have hgc : getChild idx.node l = some c := hlookup
              have hgn2 : getNode c ext = some idx0.node := by
                rw [getNode] at hgn
                rw [hgc] at hgn
                exact hgn
              have hup : updateAt idx.node (l :: ext)
                  (fun m => setChild m (key.drop idx0.ttlCharsMatch) L) =
                  setChild idx.node l (updateAt c ext
                    (fun m => setChild m (key.drop idx0.ttlCharsMatch) L)) := by
                rw [updateAt, hgc]
              have hfm2 := @findMatch_setC _ (key.drop idx.ttlCharsMatch) l
                (updateAt c ext
                  (fun m => setChild m (key.drop idx0.ttlCharsMatch) L))
                _ _ _ _ hwf.nodupKeys hfm
              rw [if_pos rfl] at hfm2
              have hfm3 : findMatch (key.drop idx.ttlCharsMatch)
                  (updateAt idx.node (l :: ext)
                    (fun m => setChild m (key.drop idx0.ttlCharsMatch) L)).children =
                  some (l, updateAt c ext
                    (fun m => setChild m (key.drop idx0.ttlCharsMatch) L), i) := by
                rw [hup]
                exact hfm2
              have hstep2 : stepIdx key { idx with node := (updateAt idx.node (l :: ext)
                  (fun m => setChild m (key.drop idx0.ttlCharsMatch) L)) } =
                  ⟨updateAt c ext (fun m => setChild m (key.drop idx0.ttlCharsMatch) L),
                    l, i, idx.ttlCharsMatch + i, idx.path ++ [l]⟩ := by
                simp [stepIdx, hfm3, hful]
              have hgo2 : goOn key ({ idx with node := (updateAt idx.node (l :: ext)
                  (fun m => setChild m (key.drop idx0.ttlCharsMatch) L)) }).ttlCharsMatch
                  (⟨updateAt c ext (fun m => setChild m (key.drop idx0.ttlCharsMatch) L),
                    l, i, idx.ttlCharsMatch + i, idx.path ++ [l]⟩ : Idx α) := by
                refine ⟨hgo.1, ?_, hgo.2.2.1, hgo.2.2.2⟩
                show 0 < (updateAt c ext
                  (fun m => setChild m (key.drop idx0.ttlCharsMatch) L)).children.length
                exact updateAt_setChild_children_pos _ L ext c hgo.2.1
              rw [traverseGo, hstep2, if_pos hgo2]
              exact ih (⟨c, l, i, idx.ttlCharsMatch + i, idx.path ++ [l]⟩ : Idx α) idx0 h
                (hwf.child hgc) hful hgo.1 hcm0 httl0 hall ext hext hgn2
            · -- the original stopped right after descending: the parent of the
              -- fresh leaf had no children, and now it has exactly the new one
              rw [if_neg hgo] at h
              obtain rfl : (⟨c, l, i, idx.ttlCharsMatch + i, idx.path ++ [l]⟩ : Idx α) =
                  idx0 := by simpa using h
              dsimp only at hcm0 httl0 hall hrel ⊢
              obtain rfl : rel = [l] := by
                exact (List.append_cancel_left hrel).symm
              have hchE : c.children = [] := by
                rw [goOn] at hgo
                push_neg at hgo
                simp only at hgo
                by_cases hch : 0 < c.children.length
                · have h4 := hgo httl0 hch hful
                  omega
                · cases hcc : c.children with
                  | nil => rfl
                  | cons a as => rw [hcc] at hch; exact absurd (by simp) hch
              have hgc : getChild idx.node l = some c := hlookup
              have hup : updateAt idx.node [l]
                  (fun m => setChild m (key.drop (idx.ttlCharsMatch + i)) L) =
                  setChild idx.node l
                    (setChild c (key.drop (idx.ttlCharsMatch + i)) L) := by
                rw [updateAt, hgc]
                rfl
              have hfm2 := @findMatch_setC _ (key.drop idx.ttlCharsMatch) l
                (setChild c (key.drop (idx.ttlCharsMatch + i)) L)
                _ _ _ _ hwf.nodupKeys hfm
              rw [if_pos rfl] at hfm2
              have hfm3 : findMatch (key.drop idx.ttlCharsMatch)
                  (updateAt idx.node [l]
                    (fun m => setChild m (key.drop (idx.ttlCharsMatch + i)) L)).children =
                  some (l, setChild c (key.drop (idx.ttlCharsMatch + i)) L, i) := by
                rw [hup]
                exact hfm2
              have hstep2 : stepIdx key { idx with node := (updateAt idx.node [l]
                  (fun m => setChild m (key.drop (idx.ttlCharsMatch + i)) L)) } =
                  ⟨setChild c (key.drop (idx.ttlCharsMatch + i)) L,
                    l, i, idx.ttlCharsMatch + i, idx.path ++ [l]⟩ := by
                simp only [stepIdx]
                rw [hfm3]
                show (if i = List.length l then
                    (⟨setChild c (key.drop (idx.ttlCharsMatch + i)) L, l, i,
                      idx.ttlCharsMatch + i, idx.path ++ [l]⟩ : Idx α)
                  else
                    ⟨updateAt idx.node [l]
                        (fun m => setChild m (key.drop (idx.ttlCharsMatch + i)) L),
                      l, i, idx.ttlCharsMatch + i, idx.path⟩) =
                  ⟨setChild c (key.drop (idx.ttlCharsMatch + i)) L, l, i,
                    idx.ttlCharsMatch + i, idx.path ++ [l]⟩
                rw [if_pos hful]
              have hgo2 : goOn key ({ idx with node := (updateAt idx.node [l]
                  (fun m => setChild m (key.drop (idx.ttlCharsMatch + i)) L)) }).ttlCharsMatch
                  (⟨setChild c (key.drop (idx.ttlCharsMatch + i)) L,
                    l, i, idx.ttlCharsMatch + i, idx.path ++ [l]⟩ : Idx α) := by
                refine ⟨httl0, ?_, hful, ?_⟩
                · show 0 < (setC c.children (key.drop (idx.ttlCharsMatch + i)) L).length
                  cases hsc : setC c.children (key.drop (idx.ttlCharsMatch + i)) L with
                  | nil => exact absurd hsc (setC_ne_nil _ _ _)
                  | cons a as => simp
                · show idx.ttlCharsMatch ≠ idx.ttlCharsMatch + i
                  omega
              have hk2pos : 0 < (key.drop (idx.ttlCharsMatch + i)).length := by
                rw [List.length_drop]
                omega
              have hfm4 : findMatch (key.drop (idx.ttlCharsMatch + i))
                  ((⟨setChild c (key.drop (idx.ttlCharsMatch + i)) L,
                    l, i, idx.ttlCharsMatch + i, idx.path ++ [l]⟩ : Idx α)).node.children =
                  some (key.drop (idx.ttlCharsMatch + i), L,
                    (key.drop (idx.ttlCharsMatch + i)).length) := by
                show findMatch (key.drop (idx.ttlCharsMatch + i))
                  (setC c.children (key.drop (idx.ttlCharsMatch + i)) L) = _
                rw [hchE]
                show findMatch (key.drop (idx.ttlCharsMatch + i))
                  [(key.drop (idx.ttlCharsMatch + i), L)] = _
                simp only [findMatch]
                rw [commonPrefixLen_self, if_pos hk2pos]
              have hsum : (idx.ttlCharsMatch + i) +
                  (key.drop (idx.ttlCharsMatch + i)).length = key.length := by
                rw [List.length_drop]
                omega
              have hstep3 : stepIdx key
                  (⟨setChild c (key.drop (idx.ttlCharsMatch + i)) L,
                    l, i, idx.ttlCharsMatch + i, idx.path ++ [l]⟩ : Idx α) =
                  ⟨L, key.drop (idx.ttlCharsMatch + i),
                    (key.drop (idx.ttlCharsMatch + i)).length, key.length,
                    (idx.path ++ [l]) ++ [key.drop (idx.ttlCharsMatch + i)]⟩ := by
                simp [stepIdx, hfm4]
                omega
              have hng3 : ¬ goOn key
                  ((⟨setChild c (key.drop (idx.ttlCharsMatch + i)) L,
                    l, i, idx.ttlCharsMatch + i, idx.path ++ [l]⟩ : Idx α)).ttlCharsMatch
                  (⟨L, key.drop (idx.ttlCharsMatch + i),
                    (key.drop (idx.ttlCharsMatch + i)).length, key.length,
                    (idx.path ++ [l]) ++ [key.drop (idx.ttlCharsMatch + i)]⟩ : Idx α) := by
                intro hgo3
                have h3 := hgo3.1
                dsimp only at h3
                omega
              rw [traverseGo, hstep2, if_pos hgo2, traverseGo, hstep3, if_neg hng3]
          · -- a partial label match would stop with `charsMatch` strictly inside
            -- the label, contradicting the full-match stop hypothesis
            have hstep : stepIdx key idx =
                ⟨idx.node, l, i, idx.ttlCharsMatch + i, idx.path⟩ := by
              simp [stepIdx, hfm, hful]
            rw [hstep] at h
            have hng : ¬ goOn key idx.ttlCharsMatch
                (⟨idx.node, l, i, idx.ttlCharsMatch + i, idx.path⟩ : Idx α) := by
              rw [goOn]
              push_neg
              intro _ _ hc2
              exact absurd hc2 hful
            rw [if_neg hng] at h
            obtain rfl : (⟨idx.node, l, i, idx.ttlCharsMatch + i, idx.path⟩ : Idx α) =
                idx0 := by simpa using h
            exact absurd hcm0 hful

/-- Sample tree for the split scenario: `insert("cart",1)` on a fresh
tree. -/
def sampleC7 : RadixTree Nat :=
  (RadixTree.empty []).insert ['c', 'a', 'r', 't'] 1

/-- C7: when an insert's traversal classifies as `exists`, the node at the
stop path is rebuilt exactly as the specification describes the split: the
old direct edge `nodeKey` is deleted, an intermediate node labeled with the
first `charsMatch` characters of the key past the consumed portion appears,
the old child is re-parented under it with label
`nodeKey.substr(charsMatch)`, and the new value sits either as the
intermediate node's data (key fully consumed) or in a second child labeled
with the key's remaining suffix. -/
theorem C7_split_structure [DecidableEq α] (t : RadixTree α) (hre : Reachable t)
    (rawKey : Key) (d : α)
    (hc : classify (processKey t rawKey).length
        (traverseFull t.tree (processKey t rawKey)) = TClass.existsCase) :
    ∃ cOld : Node α,
      lookupC (traverseFull t.tree (processKey t rawKey)).node.children
        (traverseFull t.tree (processKey t rawKey)).nodeKey = some cOld ∧
      getNode (t.insert rawKey d).tree
          (traverseFull t.tree (processKey t rawKey)).path =
        some (specSplitNode (processKey t rawKey) d
          (traverseFull t.tree (processKey t rawKey)) cOld) := by
  have hwf := reachable_WF hre
  obtain ⟨hnode, httl, hdisj⟩ :=
    traverseGo_stop hwf (processKey t rawKey) ((processKey t rawKey).length + 1)
      (initIdx t.tree) (traverseFull t.tree (processKey t rawKey))
      (traverseFull_eq t.tree (processKey t rawKey)) rfl (Nat.zero_le _) rfl
      (fun h0 => absurd h0 (by simp [initIdx]))
  rcases classify_cases (processKey t rawKey).length
      (traverseFull t.tree (processKey t rawKey))
    with ⟨hc2, h0⟩ | ⟨hc2, h0, hlt, hcm⟩ | ⟨hc2, h0, heq, hcm⟩ | ⟨hc2, h0, hn1, hn2⟩
  · rw [hc] at hc2
    exact absurd hc2 (by simp)
  · rw [hc] at hc2
    exact absurd hc2 (by simp)
  · rw [hc] at hc2
    exact absurd hc2 (by simp)
  · rcases hdisj with ⟨hcme, -, -⟩ | ⟨hcm0, hcml, hcmt, hcpl, cOld, hold⟩
    · exfalso
      rcases Nat.lt_or_ge (traverseFull t.tree (processKey t rawKey)).ttlCharsMatch
        (processKey t rawKey).length with hl | hg
      · exact hn1 ⟨hl, hcme⟩
      · exact hn2 ⟨by omega, hcme⟩
    · refine ⟨cOld, hold, ?_⟩
      have hWFm := WF_getNode hwf hnode
      have hshape := splitApply_shape (processKey t rawKey) d
        (traverseFull t.tree (processKey t rawKey)) hWFm httl hcm0 hcml hcmt hcpl hold
      have hins : (t.insert rawKey d).tree =
          updateAt t.tree (traverseFull t.tree (processKey t rawKey)).path
            (splitApply (processKey t rawKey) d
              (traverseFull t.tree (processKey t rawKey))) := by
        simp only [RadixTree.insert]
        rw [hc]
        rfl
      rw [hins, getNode_updateAt, hnode, Option.map_some', hshape]

/-- The spec scenario for C7: on the tree holding only `"cart"`, inserting
`"cast"` splits the `"cart"` edge into the intermediate node `"ca"` with the
two children `"st"` (new value) and `"rt"` (old child). -/
theorem C7_split_structure_witness :
    ∃ cOld : Node Nat,
      lookupC (traverseFull sampleC7.tree
          (processKey sampleC7 ['c', 'a', 's', 't'])).node.children
        (traverseFull sampleC7.tree
          (processKey sampleC7 ['c', 'a', 's', 't'])).nodeKey = some cOld ∧
      getNode (sampleC7.insert ['c', 'a', 's', 't'] 2).tree
          (traverseFull sampleC7.tree
            (processKey sampleC7 ['c', 'a', 's', 't'])).path =
        some (specSplitNode (processKey sampleC7 ['c', 'a', 's', 't']) 2
          (traverseFull sampleC7.tree
            (processKey sampleC7 ['c', 'a', 's', 't'])) cOld) :=
  C7_split_structure sampleC7 (Reachable.insert _ _ (Reachable.empty []))
    ['c', 'a', 's', 't'] 2 (by decide)

/-- Sample tree for removal of a duplicated value: `insert("cat",1)` twice,
so the `"cat"` node holds the data list `[1, 1]`. -/
def sampleC10 : RadixTree Nat :=
  ((RadixTree.empty []).insert ['c', 'a', 't'] 1).insert ['c', 'a', 't'] 1

/-- C10: a `remove(key, value)` call whose traversal classifies `exact` and
whose matched node's data list contains the value succeeds with no report,
decrements `dataCount` by exactly one, and removes exactly the first
structurally-equal element: writing the list as `l1 ++ v :: l2` with no
occurrence in `l1`, the node afterwards holds `l1 ++ l2` (so later
duplicates remain), or loses its data list when that is empty. -/
theorem C10_remove_first_value [DecidableEq α] (t : RadixTree α) (hre : Reachable t)
    (rawKey : Key) (v : α) (l : List α)
    (hc : classify (processKey t rawKey).length
        (traverseFull t.tree (processKey t rawKey)) = TClass.exact)
    (hd : (traverseFull t.tree (processKey t rawKey)).node.data = some l)
    (hv : v ∈ l) :
    ∃ t' : RadixTree α,
      t.remove rawKey (some v) = .ok (t', none) ∧
      t'.dataCount = t.dataCount - 1 ∧
      ∀ l1 l2 : List α, l = l1 ++ v :: l2 → v ∉ l1 →
        dataAt t'.tree (traverseFull t.tree (processKey t rawKey)).path =
          if l1 ++ l2 = [] then none else some (l1 ++ l2) := by
  have hwf := reachable_WF hre
  obtain ⟨hnode, httl, hdisj⟩ :=
    traverseGo_stop hwf (processKey t rawKey) ((processKey t rawKey).length + 1)
      (initIdx t.tree) (traverseFull t.tree (processKey t rawKey))
      (traverseFull_eq t.tree (processKey t rawKey)) rfl (Nat.zero_le _) rfl
      (fun h0 => absurd h0 (by simp [initIdx]))
  rcases classify_cases (processKey t rawKey).length
      (traverseFull t.tree (processKey t rawKey))
    with ⟨hc2, h0⟩ | ⟨hc2, h0, hlt, hcm⟩ | ⟨hc2, h0, heq, hcm⟩ | ⟨hc2, h0, hn1, hn2⟩
  · rw [hc] at hc2
    exact absurd hc2 (by simp)
  · rw [hc] at hc2
    exact absurd hc2 (by simp)
  · have hend : ∃ p0, (traverseFull t.tree (processKey t rawKey)).path =
        p0 ++ [(traverseFull t.tree (processKey t rawKey)).nodeKey] := by
      rcases hdisj with ⟨-, hp, -⟩ | ⟨-, hlt2, -, -⟩
      · exact hp (Nat.pos_of_ne_zero h0)
      · omega
    obtain ⟨p0, hpe⟩ := hend
    have hrd0 : t.remove rawKey (some v) =
        removeData t (some v) (traverseFull t.tree (processKey t rawKey)) := by
      simp only [RadixTree.remove]
      rw [hc]
    have hi : l.findIdx (fun x => x = v) < l.length :=
      List.findIdx_lt_length_of_exists ⟨v, hv, by simp⟩
    by_cases hlen : (l.eraseIdx (l.findIdx (fun x => x = v))).length = 0
    · by_cases hemp :
          (traverseFull t.tree (processKey t rawKey)).node.children.isEmpty = true
      · -- list emptied and the node has no children: clear `$`, then prune
        refine ⟨{ t with
            dataCount := t.dataCount - 1,
            keywordCount := t.keywordCount - 1,
            tree := pruneParents
              (updateAt t.tree (traverseFull t.tree (processKey t rawKey)).path
                (fun n => Node.mk n.children none))
              (traverseFull t.tree (processKey t rawKey)).path }, ?_, rfl, ?_⟩
        · rw [hrd0]
          simp only [removeData, hd]
          rw [if_pos hi, if_pos hlen, if_pos hemp]
        · intro l1 l2 hsplit hnotin
          have hieq : l.findIdx (fun x => x = v) = l1.length := by
            rw [hsplit]
            exact findIdx_eq_length_left v l1 l2 hnotin
          have hler : l.eraseIdx (l.findIdx (fun x => x = v)) = l1 ++ l2 := by
            rw [hieq, hsplit]
            exact eraseIdx_length_left l1 v l2
          have hnil : l1 ++ l2 = [] := by
            rw [← hler]
            exact List.length_eq_zero.mp hlen
          rw [if_pos hnil]
          have hch : (traverseFull t.tree (processKey t rawKey)).node.children = [] := by
            rwa [List.isEmpty_iff] at hemp
          have hnode2 : getNode t.tree (p0 ++
              [(traverseFull t.tree (processKey t rawKey)).nodeKey]) =
              some (traverseFull t.tree (processKey t rawKey)).node := by
            rw [← hpe]
            exact hnode
          have hwfe := WFe_updateAt_clear p0
            (traverseFull t.tree (processKey t rawKey)).nodeKey t.tree
            (traverseFull t.tree (processKey t rawKey)).node hwf hnode2
          have hgu : getNode
              (updateAt t.tree (p0 ++
                  [(traverseFull t.tree (processKey t rawKey)).nodeKey])
                (fun n => Node.mk n.children none))
              (p0 ++ [(traverseFull t.tree (processKey t rawKey)).nodeKey]) =
              some (Node.mk [] none) := by
            rw [getNode_updateAt, hnode2, Option.map_some', hch]
          have hnone := getNode_prunePath_empty p0 _ hwfe hgu
          rw [hpe, pruneParents_concat, dataAt, hnone]
          rfl
      · -- list emptied but the node keeps children: only `$` is deleted
        refine ⟨{ t with
            dataCount := t.dataCount - 1,
            keywordCount := t.keywordCount - 1,
            tree := updateAt t.tree (traverseFull t.tree (processKey t rawKey)).path
              (fun n => Node.mk n.children none) }, ?_, rfl, ?_⟩
        · rw [hrd0]
          simp only [removeData, hd]
          rw [if_pos hi, if_pos hlen, if_neg hemp]
        · intro l1 l2 hsplit hnotin
          have hieq : l.findIdx (fun x => x = v) = l1.length := by
            rw [hsplit]
            exact findIdx_eq_length_left v l1 l2 hnotin
          have hler : l.eraseIdx (l.findIdx (fun x => x = v)) = l1 ++ l2 := by
            rw [hieq, hsplit]
            exact eraseIdx_length_left l1 v l2
          have hnil : l1 ++ l2 = [] := by
            rw [← hler]
            exact List.length_eq_zero.mp hlen
          rw [if_pos hnil, dataAt, getNode_updateAt, hnode, Option.map_some']
          rfl
    · -- the spliced list is still non-empty: write it back
      refine ⟨{ t with
          dataCount := t.dataCount - 1,
          tree := updateAt t.tree (traverseFull t.tree (processKey t rawKey)).path
            (fun n => Node.mk n.children
              (some (l.eraseIdx (l.findIdx (fun x => x = v))))) }, ?_, rfl, ?_⟩
      · rw [hrd0]
        simp only [removeData, hd]
        rw [if_pos hi, if_neg hlen]
      · intro l1 l2 hsplit hnotin
        have hieq : l.findIdx (fun x => x = v) = l1.length := by
          rw [hsplit]
          exact findIdx_eq_length_left v l1 l2 hnotin
        have hler : l.eraseIdx (l.findIdx (fun x => x = v)) = l1 ++ l2 := by
          rw [hieq, hsplit]
          exact eraseIdx_length_left l1 v l2
        have hne : l1 ++ l2 ≠ [] := by
          intro h00
          apply hlen
          rw [hler, h00]
          rfl
        rw [if_neg hne, dataAt, getNode_updateAt, hnode, Option.map_some']
        show some (l.eraseIdx (l.findIdx (fun x => x = v))) = some (l1 ++ l2)
        rw [hler]
  · rw [hc] at hc2
    exact absurd hc2 (by simp)

/-- C10 at a concrete duplicate: removing value 1 from the `"cat"` node
holding `[1, 1]` removes only the first copy. -/
theorem C10_remove_first_value_witness :
    ∃ t' : RadixTree Nat,
      sampleC10.remove ['c', 'a', 't'] (some 1) = .ok (t', none) ∧
      t'.dataCount = sampleC10.dataCount - 1 ∧
      ∀ l1 l2 : List Nat, [1, 1] = l1 ++ 1 :: l2 → 1 ∉ l1 →
        dataAt t'.tree (traverseFull sampleC10.tree
          (processKey sampleC10 ['c', 'a', 't'])).path =
          if l1 ++ l2 = [] then none else some (l1 ++ l2) :=
  C10_remove_first_value sampleC10
    (Reachable.insert _ _ (Reachable.insert _ _ (Reachable.empty [])))
    ['c', 'a', 't'] 1 [1, 1] (by decide) (by decide) (by decide)

theorem classify_eq_exact {keyLen : Nat} {idx : Idx α}
    (h1 : idx.ttlCharsMatch = keyLen) (h2 : 0 < keyLen)
    (h3 : idx.charsMatch = idx.nodeKey.length) :
    classify keyLen idx = .exact := by
  rw [classify, if_neg (by omega),
    if_neg (by intro hx; obtain ⟨hx1, -⟩ := hx; omega), if_pos ⟨h1, h3⟩]

/-- Sample tree for the round trip: `insert("car",1)` on a fresh tree. -/
def sampleC1 : RadixTree Nat :=
  (RadixTree.empty []).insert ['c', 'a', 'r'] 1

/-- C1 counterexample: the claim quantifies over every reachable state and
every key, but inserting `"a"` over a tree that already holds `"a"` and then
removing `"a"` with no value deletes the whole pre-existing data list, so
neither the counters nor the export document return to their prior values. -/
theorem C1_roundtrip_counterexample :
    (removeT (((RadixTree.empty []).insert ['a'] 1).insert ['a'] 2 : RadixTree Nat)
      ['a'] none).keywordCount = 0 ∧
    (removeT (((RadixTree.empty []).insert ['a'] 1).insert ['a'] 2 : RadixTree Nat)
      ['a'] none).dataCount = 0 ∧
    ((RadixTree.empty []).insert ['a'] 1 : RadixTree Nat).keywordCount = 1 ∧
    ((RadixTree.empty []).insert ['a'] 1 : RadixTree Nat).dataCount = 1 ∧
    dataAt (removeT (((RadixTree.empty []).insert ['a'] 1).insert ['a'] 2 : RadixTree Nat)
      ['a'] none).tree [['a']] = none ∧
    dataAt ((RadixTree.empty []).insert ['a'] 1 : RadixTree Nat).tree [['a']] =
      some [1] := by
  exact ⟨rfl, rfl, rfl, rfl, rfl, rfl⟩

/-- C1 amended: over a `$`-free history and for a key whose normalized form
is non-empty, contains no `$` (so no remainder can ever match the reserved
`$` own-property that the source's for-in scan also iterates), and whose
insert-traversal classifies non-existent or suffix (the insert creates a
fresh leaf, no split and no push onto an existing data list), inserting and
then removing with no value argument returns exactly the prior aggregate:
the identical tree document, counters and `keySwap`, with the removal
succeeding and reporting nothing. -/
theorem C1_insert_remove_roundtrip [DecidableEq α] (t : RadixTree α)
    (hre : ReachableND t)
    (rawKey : Key) (v : α)
    (hd1 : '$' ∉ processKey t rawKey)
    (hk : processKey t rawKey ≠ [])
    (hc : classify (processKey t rawKey).length
        (traverseFull t.tree (processKey t rawKey)) = TClass.nonExists ∨
      classify (processKey t rawKey).length
        (traverseFull t.tree (processKey t rawKey)) = TClass.suffix) :
    (t.insert rawKey v).remove rawKey none = .ok (t, none) := by
  have hwf := reachable_WF (reachableND_reachable hre)
  have hlen0 : 0 < (processKey t rawKey).length := List.length_pos.mpr hk
  obtain ⟨hnode, httl, hdisj⟩ :=
    traverseGo_stop hwf (processKey t rawKey) ((processKey t rawKey).length + 1)
      (initIdx t.tree) (traverseFull t.tree (processKey t rawKey))
      (traverseFull_eq t.tree (processKey t rawKey)) rfl (Nat.zero_le _) rfl
      (fun h0 => absurd h0 (by simp [initIdx]))
  have httl0lt : (traverseFull t.tree (processKey t rawKey)).ttlCharsMatch <
      (processKey t rawKey).length := by
    rcases classify_cases (processKey t rawKey).length
        (traverseFull t.tree (processKey t rawKey))
      with ⟨hc2, h0⟩ | ⟨hc2, h0, hlt, hcm2⟩ | ⟨hc2, h0, heq, hcm2⟩ | ⟨hc2, h0, hn1, hn2⟩
    · omega
    · exact hlt
    · rcases hc with hc | hc <;> (rw [hc] at hc2; exact absurd hc2 (by simp))
    · rcases hc with hc | hc <;> (rw [hc] at hc2; exact absurd hc2 (by simp))
  have hstop : (traverseFull t.tree (processKey t rawKey)).charsMatch =
      (traverseFull t.tree (processKey t rawKey)).nodeKey.length ∧
      (∀ p ∈ (traverseFull t.tree (processKey t rawKey)).node.children,
        commonPrefixLen ((processKey t rawKey).drop
          (traverseFull t.tree (processKey t rawKey)).ttlCharsMatch) p.1 = 0) := by
    rcases hdisj with ⟨hcm0, -, hall⟩ | ⟨hpos, hlt2, hle, -, -⟩
    · exact ⟨hcm0, hall⟩
    · exfalso
      rcases classify_cases (processKey t rawKey).length
          (traverseFull t.tree (processKey t rawKey))
        with ⟨hc2, h0⟩ | ⟨hc2, h0, hlt, hcm2⟩ | ⟨hc2, h0, heq, hcm2⟩ | ⟨hc2, h0, hn1, hn2⟩
      · omega
      · omega
      · omega
      · rcases hc with hc | hc <;> (rw [hc] at hc2; exact absurd hc2 (by simp))
  obtain ⟨hcm0, hall⟩ := hstop
  have hins : t.insert rawKey v =
      createNode t (processKey t rawKey) v (traverseFull t.tree (processKey t rawKey)) := by
    rcases hc with hc | hc <;>
      · simp only [RadixTree.insert]
        rw [hc]
  have htree : (t.insert rawKey v).tree =
      updateAt t.tree (traverseFull t.tree (processKey t rawKey)).path
        (fun n => setChild n
          ((processKey t rawKey).drop
            (traverseFull t.tree (processKey t rawKey)).ttlCharsMatch)
          (Node.mk [] (some [v]))) := by
    rw [hins]
    show updateAt t.tree (traverseFull t.tree (processKey t rawKey)).path
        (fun n => setChild n
          (if (traverseFull t.tree (processKey t rawKey)).ttlCharsMatch ≠ 0 then
            (processKey t rawKey).drop
              (traverseFull t.tree (processKey t rawKey)).ttlCharsMatch
          else processKey t rawKey)
          (Node.mk [] (some [v]))) = _
    by_cases h00 : (traverseFull t.tree (processKey t rawKey)).ttlCharsMatch = 0
    · rw [if_neg (by simp [h00]), h00, List.drop_zero]
    · rw [if_pos h00]
  have hsim := traverseGo_sim (Node.mk [] (some [v]))
    ((processKey t rawKey).length + 1) (initIdx t.tree)
    (traverseFull t.tree (processKey t rawKey))
    (traverseFull_eq t.tree (processKey t rawKey)) hwf rfl hlen0
    hcm0 httl0lt hall (traverseFull t.tree (processKey t rawKey)).path rfl hnode
  have hsim2 : traverseGo ((processKey t rawKey).length + 1 + 1) (processKey t rawKey)
      (initIdx (t.insert rawKey v).tree) =
      some ⟨Node.mk [] (some [v]),
        (processKey t rawKey).drop
          (traverseFull t.tree (processKey t rawKey)).ttlCharsMatch,
        ((processKey t rawKey).drop
          (traverseFull t.tree (processKey t rawKey)).ttlCharsMatch).length,
        (processKey t rawKey).length,
        (traverseFull t.tree (processKey t rawKey)).path ++
          [(processKey t rawKey).drop
            (traverseFull t.tree (processKey t rawKey)).ttlCharsMatch]⟩ := by
    rw [htree]
    exact hsim
  have hfull : traverseFull (t.insert rawKey v).tree (processKey t rawKey) =
      ⟨Node.mk [] (some [v]),
        (processKey t rawKey).drop
          (traverseFull t.tree (processKey t rawKey)).ttlCharsMatch,
        ((processKey t rawKey).drop
          (traverseFull t.tree (processKey t rawKey)).ttlCharsMatch).length,
        (processKey t rawKey).length,
        (traverseFull t.tree (processKey t rawKey)).path ++
          [(processKey t rawKey).drop
            (traverseFull t.tree (processKey t rawKey)).ttlCharsMatch]⟩ := by
    have hsome := traverseGo_isSome_of_fuel ((processKey t rawKey).length + 1)
      (processKey t rawKey) (initIdx (t.insert rawKey v).tree) (by simp [initIdx])
    obtain ⟨r, hr⟩ := Option.isSome_iff_exists.mp hsome
    have hr2 := traverseGo_mono ((processKey t rawKey).length + 1)
      ((processKey t rawKey).length + 1 + 1) (processKey t rawKey)
      (initIdx (t.insert rawKey v).tree) r (by omega) hr
    rw [hsim2] at hr2
    obtain rfl : r = ⟨Node.mk [] (some [v]),
        (processKey t rawKey).drop
          (traverseFull t.tree (processKey t rawKey)).ttlCharsMatch,
        ((processKey t rawKey).drop
          (traverseFull t.tree (processKey t rawKey)).ttlCharsMatch).length,
        (processKey t rawKey).length,
        (traverseFull t.tree (processKey t rawKey)).path ++
          [(processKey t rawKey).drop
            (traverseFull t.tree (processKey t rawKey)).ttlCharsMatch]⟩ := by
      have h5 := hr2.symm
      simpa using h5
    rw [traverseFull, hr]
    rfl
  have hpk : processKey (t.insert rawKey v) rawKey = processKey t rawKey := by
    rw [hins]
    rfl
  have hclass2 : classify (processKey t rawKey).length
      (traverseFull (t.insert rawKey v).tree (processKey t rawKey)) = TClass.exact := by
    rw [hfull]
    exact classify_eq_exact rfl hlen0 rfl
  have hrm0 : (t.insert rawKey v).remove rawKey none =
      removeData (t.insert rawKey v) none
        (traverseFull (t.insert rawKey v).tree (processKey t rawKey)) := by
    simp only [RadixTree.remove]
    rw [hpk, hclass2]
  have hrm1 : removeData (t.insert rawKey v) none
      ⟨Node.mk [] (some [v]),
        (processKey t rawKey).drop
          (traverseFull t.tree (processKey t rawKey)).ttlCharsMatch,
        ((processKey t rawKey).drop
          (traverseFull t.tree (processKey t rawKey)).ttlCharsMatch).length,
        (processKey t rawKey).length,
        (traverseFull t.tree (processKey t rawKey)).path ++
          [(processKey t rawKey).drop
            (traverseFull t.tree (processKey t rawKey)).ttlCharsMatch]⟩ =
      .ok ({ t.insert rawKey v with
        dataCount := (t.insert rawKey v).dataCount - 1,
        keywordCount := (t.insert rawKey v).keywordCount - 1,
        tree := pruneParents
          (updateAt (t.insert rawKey v).tree
            ((traverseFull t.tree (processKey t rawKey)).path ++
              [(processKey t rawKey).drop
                (traverseFull t.tree (processKey t rawKey)).ttlCharsMatch])
            (fun n => Node.mk n.children none))
          ((traverseFull t.tree (processKey t rawKey)).path ++
            [(processKey t rawKey).drop
              (traverseFull t.tree (processKey t rawKey)).ttlCharsMatch]) }, none) := rfl
  have h1 : (t.insert rawKey v).keywordCount - 1 = t.keywordCount := by
    rw [hins]
    show t.keywordCount + 1 - 1 = t.keywordCount
    omega
  have h2 : (t.insert rawKey v).dataCount - 1 = t.dataCount := by
    rw [hins]
    show t.dataCount + 1 - 1 = t.dataCount
    omega
  have h4 : (t.insert rawKey v).keySwap = t.keySwap := by
    rw [hins]
    rfl
  have hfreshroot : lookupC (traverseFull t.tree (processKey t rawKey)).node.children
      ((processKey t rawKey).drop
        (traverseFull t.tree (processKey t rawKey)).ttlCharsMatch) = none :=
    lookupC_drop_fresh httl0lt hall
  have htr : pruneParents
      (updateAt (t.insert rawKey v).tree
        ((traverseFull t.tree (processKey t rawKey)).path ++
          [(processKey t rawKey).drop
            (traverseFull t.tree (processKey t rawKey)).ttlCharsMatch])
        (fun n => Node.mk n.children none))
      ((traverseFull t.tree (processKey t rawKey)).path ++
        [(processKey t rawKey).drop
          (traverseFull t.tree (processKey t rawKey)).ttlCharsMatch]) = t.tree := by
    rw [pruneParents_concat, htree, updateAt_then_clear (Node.mk [] (some [v])) rfl]
    exact prunePath_restore _ _ hwf hnode hfreshroot
  rw [hrm0, hfull, hrm1, h1, h2, htr]
  show Except.ok ((⟨t.keywordCount, t.dataCount, t.tree,
    (t.insert rawKey v).keySwap⟩ : RadixTree α), none) = Except.ok (t, none)
  rw [h4]

/-- The round trip at a concrete suffix insert: on the tree holding only
`"car"`, `insert("card",2)` followed by `remove("card")` returns the exact
prior aggregate. -/
theorem C1_insert_remove_roundtrip_witness :
    (sampleC1.insert ['c', 'a', 'r', 'd'] 2).remove ['c', 'a', 'r', 'd'] none =
      .ok (sampleC1, none) :=
  C1_insert_remove_roundtrip sampleC1
    (ReachableND.insert _ _ (by decide) (ReachableND.empty []))
    ['c', 'a', 'r', 'd'] 2 (by decide) (by decide) (Or.inr (by decide))

end JsSearchRt
